import Mathlib

set_option maxRecDepth 8000000

/-!
Verification of the Tenebrium UTXO-node core against its specification.

The Rust sources are shallowly embedded: machine integers become `Nat`
(with explicit `% 2^w` reductions where the code wraps or saturates),
byte strings become `List Nat`, `HashMap`s over outpoints become
functions `OutPoint → Option TxOut`, fallible operations return
`Except`, and mutation becomes explicit state passing.
-/

namespace Tenebrium

/-- 2^32, the modulus for 32-bit words. -/
def w32mod : Nat := 4294967296

/-- 2^64, the modulus for 64-bit words. -/
def w64mod : Nat := 18446744073709551616

/-- The largest u64 value. -/
def u64max : Nat := 18446744073709551615

/-- The largest u128 value. -/
def u128max : Nat := 340282366920938463463374607431768211455

/-- 32-bit rotate right of a word already reduced below 2^32. -/
def rotr32 (n x : Nat) : Nat :=
  ((x >>> n) ||| (x <<< (32 - n))) % w32mod

/-- 32-bit bitwise complement. -/
def not32 (x : Nat) : Nat := x ^^^ 4294967295

/-- Little-endian byte encoding of a 32-bit value. -/
def u32le (x : Nat) : List Nat :=
  [x % 256, x / 256 % 256, x / 65536 % 256, x / 16777216 % 256]

/-- Little-endian byte encoding of a 64-bit value. -/
def u64le (x : Nat) : List Nat :=
  u32le (x % w32mod) ++ u32le (x / w32mod % w32mod)

/-- Little-endian byte encoding of an i32 (two's complement). -/
def i32le (x : Int) : List Nat :=
  u32le ((x % (w32mod : Int)).toNat)

/-- Big-endian byte encoding of a 32-bit value. -/
def u32be (x : Nat) : List Nat :=
  [x / 16777216 % 256, x / 65536 % 256, x / 256 % 256, x % 256]

/-- Big-endian byte encoding of a 64-bit value. -/
def u64be (x : Nat) : List Nat :=
  u32be (x / w32mod % w32mod) ++ u32be (x % w32mod)

/-- SHA-256 round constants (decimal). -/
def shaK : List Nat :=
  [1116352408, 1899447441, 3049323471, 3921009573, 961987163, 1508970993,
   2453635748, 2870763221, 3624381080, 310598401, 607225278, 1426881987,
   1925078388, 2162078206, 2614888103, 3248222580, 3835390401, 4022224774,
   264347078, 604807628, 770255983, 1249150122, 1555081692, 1996064986,
   2554220882, 2821834349, 2952996808, 3210313671, 3336571891, 3584528711,
   113926993, 338241895, 666307205, 773529912, 1294757372, 1396182291,
   1695183700, 1986661051, 2177026350, 2456956037, 2730485921, 2820302411,
   3259730800, 3345764771, 3516065817, 3600352804, 4094571909, 275423344,
   430227734, 506948616, 659060556, 883997877, 958139571, 1322822218,
   1537002063, 1747873779, 1955562222, 2024104815, 2227730452, 2361852424,
   2428436474, 2756734187, 3204031479, 3329325298]

/-- SHA-256 initial hash state (decimal). -/
def shaH0 : List Nat :=
  [1779033703, 3144134277, 1013904242, 2773480762,
   1359893119, 2600822924, 528734635, 1541459225]

/-- Interpret four consecutive bytes as a big-endian 32-bit word. -/
def wordsOfBytes : List Nat → List Nat
  | a :: b :: c :: d :: rest => (a * 16777216 + b * 65536 + c * 256 + d) :: wordsOfBytes rest
  | _ => []

/-- Extend the first sixteen schedule words to sixty-four.  `ws` holds the
words produced so far in reverse order. -/
def shaExtend (ws : List Nat) : Nat → List Nat
  | 0 => ws.reverse
  | k + 1 =>
    let w2 := ws.getD 1 0
    let w7 := ws.getD 6 0
    let w15 := ws.getD 14 0
    let w16 := ws.getD 15 0
    let s0 := (rotr32 7 w15) ^^^ (rotr32 18 w15) ^^^ (w15 >>> 3)
    let s1 := (rotr32 17 w2) ^^^ (rotr32 19 w2) ^^^ (w2 >>> 10)
    shaExtend (((w16 + s0 + w7 + s1) % w32mod) :: ws) k

/-- One SHA-256 round over the state `[a,b,c,d,e,f,g,h]`. -/
def shaRound (st : List Nat) (kw : Nat × Nat) : List Nat :=
  let a := st.getD 0 0
  let b := st.getD 1 0
  let c := st.getD 2 0
  let d := st.getD 3 0
  let e := st.getD 4 0
  let f := st.getD 5 0
  let g := st.getD 6 0
  let h := st.getD 7 0
  let s1 := (rotr32 6 e) ^^^ (rotr32 11 e) ^^^ (rotr32 25 e)
  let ch := (e &&& f) ^^^ ((not32 e) &&& g)
  let temp1 := (h + s1 + ch + kw.1 + kw.2) % w32mod
  let s0 := (rotr32 2 a) ^^^ (rotr32 13 a) ^^^ (rotr32 22 a)
  let maj := (a &&& b) ^^^ (a &&& c) ^^^ (b &&& c)
  let temp2 := (s0 + maj) % w32mod
  [(temp1 + temp2) % w32mod, a, b, c, (d + temp1) % w32mod, e, f, g]

/-- Compress one 64-byte block into the running state. -/
def shaCompress (st : List Nat) (block : List Nat) : List Nat :=
  let w := shaExtend (wordsOfBytes block).reverse 48
  let final := (w.zip shaK).foldl shaRound st
  (st.zip final).map (fun p => (p.1 + p.2) % w32mod)

/-- Split a byte list into 64-byte chunks (`fuel` bounds the recursion). -/
def chunks64 (fuel : Nat) (l : List Nat) : List (List Nat) :=
  match fuel, l with
  | 0, _ => []
  | _, [] => []
  | f + 1, l => l.take 64 :: chunks64 f (l.drop 64)

/-- SHA-256 padding: append 0x80, zeros, and the 64-bit bit length. -/
def shaPad (msg : List Nat) : List Nat :=
  let len := msg.length
  let zeros := (119 - len % 64) % 64
  msg ++ [128] ++ List.replicate zeros 0 ++ u64be (len * 8)

/-- SHA-256 of a byte string, as 32 bytes. -/
def sha256 (msg : List Nat) : List Nat :=
  let padded := shaPad msg
  let blocks := chunks64 (padded.length) padded
  let final := blocks.foldl shaCompress shaH0
  final.foldr (fun w acc => u32be w ++ acc) []

/-- Double SHA-256, the digest used for txids and header hashes. -/
def dsha (msg : List Nat) : List Nat := sha256 (sha256 msg)

/-! ## Transaction data model (tenebrium-utxo/src/lib.rs) -/

/-- Maximum allowed script size in bytes. -/
def MAX_SCRIPT_SIZE : Nat := 10000

/-- Maximum allowed number of inputs or outputs in a transaction. -/
def MAX_TX_INOUTS : Nat := 10000

/-- `OutPoint { txid: [u8; 32], vout: u32 }`. -/
structure OutPoint where
  txid : List Nat
  vout : Nat
deriving DecidableEq, Repr

/-- `TxIn { prevout, script_sig: Vec<u8>, sequence: u32 }`. -/
structure TxIn where
  prevout : OutPoint
  script_sig : List Nat
  sequence : Nat
deriving DecidableEq, Repr

/-- `TxOut { value: u64, script_pubkey: Vec<u8> }`. -/
structure TxOut where
  value : Nat
  script_pubkey : List Nat
deriving DecidableEq, Repr

/-- `Transaction { version: i32, vin, vout, lock_time: u32 }`. -/
structure Transaction where
  version : Int
  vin : List TxIn
  vout : List TxOut
  lock_time : Nat
deriving DecidableEq, Repr

/-- `UtxoError` (the `SerdeError` variant is not modelled: `serde_json`
serialization of these types cannot fail). -/
inductive UtxoError where
  | tooLargeScript (len max : Nat)
  | tooManyInOut (n max : Nat)
  | overflow
  | missingUtxo (op : OutPoint)
  | valueNotConserved (input output : Nat)
  | duplicateInput (op : OutPoint)
  | duplicateOutput (op : OutPoint)
deriving DecidableEq, Repr

/-- `Transaction::validate`. -/
def Transaction.validate (t : Transaction) : Except UtxoError Unit :=
  if t.vin.length > MAX_TX_INOUTS then
    .error (.tooManyInOut t.vin.length MAX_TX_INOUTS)
  else if t.vout.length > MAX_TX_INOUTS then
    .error (.tooManyInOut t.vout.length MAX_TX_INOUTS)
  else
    match t.vin.find? (fun i => decide (i.script_sig.length > MAX_SCRIPT_SIZE)) with
    | some i => .error (.tooLargeScript i.script_sig.length MAX_SCRIPT_SIZE)
    | none =>
      match t.vout.find? (fun o => decide (o.script_pubkey.length > MAX_SCRIPT_SIZE)) with
      | some o => .error (.tooLargeScript o.script_pubkey.length MAX_SCRIPT_SIZE)
      | none => .ok ()

/-- The in-memory UTXO set: the pure mapping carried by
`InMemoryUtxoSet`'s `HashMap<OutPoint, TxOut>`. -/
def UtxoMap : Type := OutPoint → Option TxOut

/-- `UtxoSet::get`. -/
def mget (S : UtxoMap) (op : OutPoint) : Option TxOut := S op

/-- `UtxoSet::insert`. -/
def minsert (S : UtxoMap) (op : OutPoint) (txo : TxOut) : UtxoMap :=
  fun x => if x = op then some txo else S x

/-- `UtxoSet::remove` (the removed binding, where needed, is read off
with `mget` first). -/
def mremove (S : UtxoMap) (op : OutPoint) : UtxoMap :=
  fun x => if x = op then none else S x

/-- `Transaction::sum_outputs` accumulator: `checked_add` on u64. -/
def sumOutputsAux : Nat → List TxOut → Except UtxoError Nat
  | s, [] => .ok s
  | s, o :: rest =>
    if s + o.value > u64max then .error .overflow
    else sumOutputsAux (s + o.value) rest

/-- `Transaction::sum_outputs`. -/
def Transaction.sum_outputs (t : Transaction) : Except UtxoError Nat :=
  sumOutputsAux 0 t.vout

/-- `Transaction::sum_inputs` accumulator. -/
def sumInputsAux (S : UtxoMap) : Nat → List TxIn → Except UtxoError Nat
  | s, [] => .ok s
  | s, i :: rest =>
    match mget S i.prevout with
    | none => .error (.missingUtxo i.prevout)
    | some prev =>
      if s + prev.value > u64max then .error .overflow
      else sumInputsAux S (s + prev.value) rest

/-- `Transaction::sum_inputs`. -/
def Transaction.sum_inputs (t : Transaction) (S : UtxoMap) : Except UtxoError Nat :=
  sumInputsAux S 0 t.vin

/-- The duplicate-input scan of `validate_value_conservation`: returns the
first prevout whose `HashSet::insert` reports it already seen. -/
def dupInputScan : List OutPoint → List TxIn → Option OutPoint
  | _, [] => none
  | seen, i :: rest =>
    if i.prevout ∈ seen then some i.prevout
    else dupInputScan (i.prevout :: seen) rest

/-- `Transaction::validate_value_conservation`: duplicate-input check, then
input/output sums, then the conservation inequality; returns the fee. -/
def Transaction.validate_value_conservation (t : Transaction) (S : UtxoMap) :
    Except UtxoError Nat :=
  match dupInputScan [] t.vin with
  | some op => .error (.duplicateInput op)
  | none =>
    match t.sum_inputs S with
    | .error e => .error e
    | .ok input =>
      match t.sum_outputs with
      | .error e => .error e
      | .ok output =>
        if input < output then .error (.valueNotConserved input output)
        else .ok (input - output)

/-- `Transaction::canonical_bytes_v2`: validation, then the little-endian
binary layout. -/
def Transaction.canonical_bytes_v2 (t : Transaction) : Except UtxoError (List Nat) :=
  match t.validate with
  | .error e => .error e
  | .ok () =>
    .ok (i32le t.version ++ u64le t.vin.length ++
      (t.vin.map (fun i =>
        i.prevout.txid ++ u32le i.prevout.vout ++
        u64le i.script_sig.length ++ i.script_sig ++ u32le i.sequence)).flatten ++
      u64le t.vout.length ++
      (t.vout.map (fun o =>
        u64le o.value ++ u64le o.script_pubkey.length ++ o.script_pubkey)).flatten ++
      u32le t.lock_time)

/-- Bytes of a string, for the JSON encoding. -/
def strBytes (s : String) : List Nat := s.data.map Char.toNat

/-- Decimal rendering of an i32 value. -/
def intRepr (v : Int) : String :=
  if v < 0 then "-" ++ Nat.repr (-v).toNat else Nat.repr v.toNat

/-- JSON array of byte values, `serde_json` compact form. -/
def jsonBytesArr (l : List Nat) : String :=
  "[" ++ String.intercalate "," (l.map Nat.repr) ++ "]"

/-- Opening brace character, as a string. -/
def obr : String := "\x7b"

/-- Closing brace character, as a string. -/
def cbr : String := "\x7d"

/-- `serde_json` compact encoding of a `TxIn`. -/
def jsonTxIn (i : TxIn) : String :=
  obr ++ "\"prevout\":" ++ obr ++ "\"txid\":" ++ jsonBytesArr i.prevout.txid ++
  ",\"vout\":" ++ Nat.repr i.prevout.vout ++ cbr ++
  ",\"script_sig\":" ++ jsonBytesArr i.script_sig ++
  ",\"sequence\":" ++ Nat.repr i.sequence ++ cbr

/-- `serde_json` compact encoding of a `TxOut`. -/
def jsonTxOut (o : TxOut) : String :=
  obr ++ "\"value\":" ++ Nat.repr o.value ++
  ",\"script_pubkey\":" ++ jsonBytesArr o.script_pubkey ++ cbr

/-- `serde_json` compact encoding of a `Transaction` (struct field order). -/
def jsonTx (t : Transaction) : String :=
  obr ++ "\"version\":" ++ intRepr t.version ++
  ",\"vin\":[" ++ String.intercalate "," (t.vin.map jsonTxIn) ++ "]" ++
  ",\"vout\":[" ++ String.intercalate "," (t.vout.map jsonTxOut) ++ "]" ++
  ",\"lock_time\":" ++ Nat.repr t.lock_time ++ cbr

/-- `Transaction::canonical_bytes_v1`: the `serde_json::to_vec` encoding. -/
def Transaction.canonical_bytes_v1 (t : Transaction) : Except UtxoError (List Nat) :=
  .ok (strBytes (jsonTx t))

/-- `Transaction::txid_v2`: double SHA-256 of the canonical v2 bytes. -/
def Transaction.txid_v2 (t : Transaction) : Except UtxoError (List Nat) :=
  match t.canonical_bytes_v2 with
  | .error e => .error e
  | .ok bytes => .ok (dsha bytes)

/-- `Transaction::txid_v1`: double SHA-256 of the JSON bytes. -/
def Transaction.txid_v1 (t : Transaction) : Except UtxoError (List Nat) :=
  match t.canonical_bytes_v1 with
  | .error e => .error e
  | .ok bytes => .ok (dsha bytes)

/-- `Transaction::make_outpoints_v2`. -/
def Transaction.make_outpoints_v2 (t : Transaction) : Except UtxoError (List OutPoint) :=
  match t.txid_v2 with
  | .error e => .error e
  | .ok txid => .ok ((List.range t.vout.length).map (fun i => ⟨txid, i⟩))

/-- `Transaction::make_outpoints` (alias to v2). -/
def Transaction.make_outpoints (t : Transaction) : Except UtxoError (List OutPoint) :=
  t.make_outpoints_v2

/-- `tx_sighash_v2`: double SHA-256 of canonical v2 bytes with all
`script_sig` fields cleared. -/
def clearScriptSigs (t : Transaction) : Transaction :=
  { t with vin := t.vin.map (fun i => { i with script_sig := [] }) }

/-- `tx_sighash_v2` itself. -/
def tx_sighash_v2 (t : Transaction) : Except UtxoError (List Nat) :=
  match (clearScriptSigs t).canonical_bytes_v2 with
  | .error e => .error e
  | .ok bytes => .ok (dsha bytes)

/-! ## InMemoryUtxoSet apply/rollback -/

/-- `ApplyReceipt { removed, inserted }`. -/
structure ApplyReceipt where
  removed : List (OutPoint × TxOut)
  inserted : List OutPoint
deriving DecidableEq, Repr

/-- `InMemoryUtxoSet::rollback`: remove every inserted outpoint, then
re-insert every removed pair; always succeeds. -/
def rollback (S : UtxoMap) (r : ApplyReceipt) : UtxoMap × Except UtxoError Unit :=
  let S1 := r.inserted.foldl mremove S
  let S2 := r.removed.foldl (fun s p => minsert s p.1 p.2) S1
  (S2, .ok ())

/-- The mid-failure reinsertion of `apply_tx`'s removal loop:
`for (op, to) in removed.iter().rev() { insert }`. -/
def reinsertRev (S : UtxoMap) (removed : List (OutPoint × TxOut)) : UtxoMap :=
  removed.reverse.foldl (fun s p => minsert s p.1 p.2) S

/-- The prevout-removal loop of `apply_tx`. -/
def removeLoop (S : UtxoMap) (removed : List (OutPoint × TxOut)) :
    List TxIn → UtxoMap × Except UtxoError (List (OutPoint × TxOut))
  | [] => (S, .ok removed)
  | i :: rest =>
    match S i.prevout with
    | some txo => removeLoop (mremove S i.prevout) (removed ++ [(i.prevout, txo)]) rest
    | none => (reinsertRev S removed, .error (.missingUtxo i.prevout))

/-- The output-insertion loop of `apply_tx`, with collision rollback. -/
def insertLoop (S : UtxoMap) (removed : List (OutPoint × TxOut)) (inserted : List OutPoint) :
    List (OutPoint × TxOut) → UtxoMap × Except UtxoError (List OutPoint)
  | [] => (S, .ok inserted)
  | (op, txo) :: rest =>
    if (S op).isSome then
      ((rollback S ⟨removed, inserted⟩).1, .error (.duplicateOutput op))
    else insertLoop (minsert S op txo) removed (inserted ++ [op]) rest

/-- `InMemoryUtxoSet::apply_tx`. -/
def apply_tx (S : UtxoMap) (t : Transaction) : UtxoMap × Except UtxoError ApplyReceipt :=
  match t.validate with
  | .error e => (S, .error e)
  | .ok () =>
    match t.validate_value_conservation S with
    | .error e => (S, .error e)
    | .ok _fee =>
      match removeLoop S [] t.vin with
      | (S1, .error e) => (S1, .error e)
      | (S1, .ok removed) =>
        match t.make_outpoints with
        | .error e => (S1, .error e)
        | .ok outpoints =>
          match insertLoop S1 removed [] (outpoints.zip t.vout) with
          | (S2, .error e) => (S2, .error e)
          | (S2, .ok inserted) => (S2, .ok ⟨removed, inserted⟩)


/-! ## Consensus primitives (tenebrium-consensus/src/lib.rs) -/

/-- `BlockHeader`. -/
structure BlockHeader where
  version : Int
  prev_block_hash : List Nat
  merkle_root : List Nat
  time : Nat
  bits : Nat
  nonce : Nat
deriving DecidableEq, Repr

/-- `ConsensusError`. -/
inductive ConsensusError where
  | utxo (e : UtxoError)
  | invalidBits
deriving DecidableEq, Repr

/-- The 80-byte little-endian header layout hashed by `header_hash`. -/
def header_bytes (h : BlockHeader) : List Nat :=
  i32le h.version ++ h.prev_block_hash ++ h.merkle_root ++
  u32le h.time ++ u32le h.bits ++ u32le h.nonce

/-- `header_hash`: double SHA-256 of the header bytes. -/
def header_hash (h : BlockHeader) : List Nat := dsha (header_bytes h)

/-- `bits_to_target`: decode compact nBits into a 32-byte big-endian target. -/
def bits_to_target (bits : Nat) : Except ConsensusError (List Nat) :=
  if bits = 0 then .error .invalidBits
  else
    let exponent := bits >>> 24
    let mantissa := bits &&& 0x007fffff
    if mantissa = 0 then .error .invalidBits
    else if exponent ≤ 3 then
      let shift := 8 * (3 - exponent)
      let value := mantissa >>> shift
      .ok (List.replicate (32 - exponent) 0 ++ (u32be value).drop (4 - exponent))
    else if exponent > 32 then .error .invalidBits
    else
      let start := 32 - exponent
      if start + 3 > 32 then .error .invalidBits
      else
        .ok (List.replicate start 0 ++
          [(mantissa >>> 16) &&& 255, (mantissa >>> 8) &&& 255, mantissa &&& 255] ++
          List.replicate (32 - start - 3) 0)

/-- `hash_leq`: lexicographic (big-endian numeric) comparison of 32-byte
buffers; `true` when `a ≤ b`. -/
def hash_leq : List Nat → List Nat → Bool
  | a :: as, b :: bs =>
    if a < b then true
    else if b < a then false
    else hash_leq as bs
  | _, _ => true

/-- `check_pow`: the header hash must not exceed the decoded target. -/
def check_pow (h : BlockHeader) : Except ConsensusError Bool :=
  match bits_to_target h.bits with
  | .error e => .error e
  | .ok target => .ok (hash_leq (header_hash h) target)

/-! ## Node-side consensus helpers (tenebriumd/src/p2p.rs) -/

/-- `MAX_FUTURE_DRIFT_SECS`. -/
def MAX_FUTURE_DRIFT_SECS : Nat := 2 * 60 * 60

/-- `TARGET_BLOCK_TIME_SECS`. -/
def TARGET_BLOCK_TIME_SECS : Nat := 600

/-- `DIFFICULTY_WINDOW`. -/
def DIFFICULTY_WINDOW : Nat := 10

/-- `INITIAL_BITS`. -/
def INITIAL_BITS : Nat := 0x207fffff

/-- `P2pError`, restricted to the variants reachable from the embedded
code paths (I/O, JSON, sled and mempool wrappers are not). -/
inductive P2pError where
  | utxo (e : UtxoError)
  | consensus (e : ConsensusError)
  | invalidBlock (msg : String)
deriving DecidableEq, Repr

/-- `bits_to_target_u128`: compact target as a u128, shifts of 128 or more
saturate to `u128::MAX`; narrower shifts drop high bits like Rust `<<`. -/
def bits_to_target_u128 (bits : Nat) : Except P2pError Nat :=
  if bits = 0 then .error (.invalidBlock "invalid bits")
  else
    let exponent := bits >>> 24
    let mantissa := bits &&& 0x007fffff
    if mantissa = 0 then .error (.invalidBlock "invalid bits")
    else if exponent ≤ 3 then
      .ok (mantissa >>> (8 * (3 - exponent)))
    else
      let shift := 8 * (exponent - 3)
      if shift ≥ 128 then .ok u128max
      else .ok ((mantissa <<< shift) % (u128max + 1))

/-- `target_to_bits` byte-length loop (`fuel` bounds the recursion). -/
def byteLenAux : Nat → Nat → Nat
  | 0, _ => 0
  | f + 1, n => if n = 0 then 0 else byteLenAux f (n >>> 8) + 1

/-- `target_to_bits`: re-encode a u128 target into compact bits. -/
def target_to_bits (target : Nat) : Nat :=
  if target = 0 then 0
  else
    let exponent := byteLenAux (target + 1) target
    let exponent := max exponent 1
    let shift := 8 * (exponent - 3)
    let mantissa :=
      if shift ≥ 128 then 0x007fffff
      else (target >>> shift) &&& 0x007fffff
    (exponent <<< 24) ||| mantissa

/-- `work_from_bits`: `2^120 / (target + 1)`, with the same u128 target
decoding as `bits_to_target_u128` and a saturating increment. -/
def work_from_bits (bits : Nat) : Except P2pError Nat :=
  if bits = 0 then .error (.invalidBlock "invalid bits")
  else
    let exponent := bits >>> 24
    let mantissa := bits &&& 0x007fffff
    if mantissa = 0 then .error (.invalidBlock "invalid bits")
    else
      let target :=
        if exponent ≤ 3 then mantissa >>> (8 * (3 - exponent))
        else
          let shift := 8 * (exponent - 3)
          if shift ≥ 128 then u128max
          else (mantissa <<< shift) % (u128max + 1)
      if target = 0 then .ok (1 <<< 120)
      else .ok ((1 <<< 120) / (min (target + 1) u128max))

/-- `apply_coinbase`'s insertion loop: error on a pre-existing key, with no
rollback of outputs already inserted. -/
def coinbaseLoop (S : UtxoMap) (acc : List OutPoint) :
    List (OutPoint × TxOut) → UtxoMap × Except P2pError ApplyReceipt
  | [] => (S, .ok ⟨[], acc⟩)
  | (op, txo) :: rest =>
    if (S op).isSome then (S, .error (.invalidBlock "coinbase output exists"))
    else coinbaseLoop (minsert S op txo) (acc ++ [op]) rest

/-- `apply_coinbase` (tenebriumd/src/p2p.rs). -/
def apply_coinbase (S : UtxoMap) (t : Transaction) : UtxoMap × Except P2pError ApplyReceipt :=
  match t.validate with
  | .error e => (S, .error (.utxo e))
  | .ok () =>
    match t.make_outpoints with
    | .error e => (S, .error (.utxo e))
    | .ok outpoints => coinbaseLoop S [] (outpoints.zip t.vout)

/-! ## Header chain state (tenebriumd/src/p2p.rs) -/

/-- Association-list lookup keyed by 32-byte hashes.  Rust iterates its
`HashMap`s in unspecified order; the embedding fixes insertion order. -/
def alookup {α : Type} (l : List (List Nat × α)) (k : List Nat) : Option α :=
  (l.find? (fun p => decide (p.1 = k))).map (fun p => p.2)

/-- `ChainState` (headers, heights, cumulative work, tip), without the
optional sled handle (all persistence paths are no-ops when `db: None`). -/
structure ChainState where
  headers : List (List Nat × BlockHeader)
  heights : List (List Nat × Nat)
  work : List (List Nat × Nat)
  tip : List Nat

/-- `ChainState::expected_bits`. -/
def ChainState.expected_bits (c : ChainState) (prev : Option BlockHeader) (height : Nat) :
    Except P2pError Nat :=
  match prev with
  | none => .ok INITIAL_BITS
  | some prev =>
    if height = 0 ∨ height % DIFFICULTY_WINDOW ≠ 0 then .ok prev.bits
    else
      let window_start_height := height - DIFFICULTY_WINDOW
      match (c.heights.find? (fun p => decide (p.2 = window_start_height))).map (fun p => p.1) with
      | none => .error (.invalidBlock "missing window start")
      | some start_hash =>
        match alookup c.headers start_hash with
        | none => .error (.invalidBlock "missing window header")
        | some start_header =>
          let actual_time := prev.time - start_header.time
          let expected_time := TARGET_BLOCK_TIME_SECS * DIFFICULTY_WINDOW
          match bits_to_target_u128 prev.bits with
          | .error e => .error e
          | .ok prev_target =>
            let new_target := (min (prev_target * actual_time) u128max) / (max expected_time 1)
            match bits_to_target_u128 prev.bits with
            | .error e => .error e
            | .ok max_target =>
              let new_target := if new_target > max_target then max_target else new_target
              .ok (target_to_bits new_target)

/-- The PoW gate at the top of `validate_header_rules`. -/
def powCheckStep (header : BlockHeader) (no_pow_check : Bool) : Except P2pError Unit :=
  if no_pow_check then .ok ()
  else
    match check_pow header with
    | .error e => .error (P2pError.consensus e)
    | .ok true => .ok ()
    | .ok false => .error (P2pError.invalidBlock "invalid PoW")

/-- The parent-relative checks of `validate_header_rules`: time
monotonicity, then the expected-bits comparison. -/
def prevChecksStep (header : BlockHeader) (prev : Option BlockHeader)
    (expected_bits : Nat) : Except P2pError Unit :=
  match prev with
  | none => .ok ()
  | some prev =>
    if header.time < prev.time then .error (P2pError.invalidBlock "time too old")
    else if header.bits ≠ expected_bits then
      .error (P2pError.invalidBlock "unexpected difficulty bits")
    else .ok ()

/-- `validate_header_rules`; the wall clock read becomes the `now`
parameter. -/
def validate_header_rules (header : BlockHeader) (prev : Option BlockHeader)
    (no_pow_check : Bool) (expected_bits : Nat) (now : Nat) : Except P2pError Unit :=
  match powCheckStep header no_pow_check with
  | .error e => .error e
  | .ok () =>
    if header.bits = 0 then .error (.invalidBlock "invalid bits")
    else
      match prevChecksStep header prev expected_bits with
      | .error e => .error e
      | .ok () =>
        if header.time > now + MAX_FUTURE_DRIFT_SECS then
          .error (.invalidBlock "time too far in future")
        else .ok ()

/-- `ChainState::add_header` (persistence paths elided: `db` is `None`).
The wall clock read inside `validate_header_rules` becomes `now`. -/
def ChainState.add_header (c : ChainState) (h : BlockHeader) (no_pow_check : Bool)
    (now : Nat) : ChainState × Except P2pError Unit :=
  let hash := header_hash h
  if (alookup c.headers hash).isSome then (c, .ok ())
  else
    match (match alookup c.heights h.prev_block_hash with
      | some prev_h =>
        let prev_work := (alookup c.work h.prev_block_hash).getD 0
        (match alookup c.headers h.prev_block_hash with
        | none => .error (P2pError.invalidBlock "missing prev header")
        | some ph => .ok (prev_h + 1, prev_work, some ph))
      | none =>
        if h.prev_block_hash = List.replicate 32 0 then .ok (0, 0, none)
        else .error (P2pError.invalidBlock "unknown prev header") :
      Except P2pError (Nat × Nat × Option BlockHeader)) with
    | .error e => (c, .error e)
    | .ok (height, prev_work, prev_header) =>
      match c.expected_bits prev_header height with
      | .error e => (c, .error e)
      | .ok eb =>
        match validate_header_rules h prev_header no_pow_check eb now with
        | .error e => (c, .error e)
        | .ok () =>
          match work_from_bits h.bits with
          | .error e => (c, .error e)
          | .ok wfb =>
            let work := min (prev_work + wfb) u128max
            let c' : ChainState :=
              { c with
                headers := c.headers ++ [(hash, h)],
                heights := c.heights ++ [(hash, height)],
                work := c.work ++ [(hash, work)] }
            let tip_height := (alookup c'.heights c.tip).getD 0
            let tip_work := (alookup c'.work c.tip).getD 0
            if work > tip_work ∨ (work = tip_work ∧ height > tip_height) then
              ({ c' with tip := hash }, .ok ())
            else (c', .ok ())

/-! ## Mempool (tenebriumd/src/mempool.rs) -/

/-- `MempoolConfig`; the f64 fee-rate floor is embedded as an exact
rational. -/
structure MempoolConfig where
  max_txs : Nat
  max_total_bytes : Nat
  min_fee_rate : ℚ

/-- `MempoolError`. -/
inductive MempoolError where
  | utxo (e : UtxoError)
  | duplicateTx
  | doubleSpend (op : OutPoint)
  | full
  | bytesLimit
  | lowFee
deriving DecidableEq, Repr

/-- `MempoolEntry`. -/
structure MempoolEntry where
  tx : Transaction
  txid_v1 : List Nat
  txid_v2 : List Nat
  fee : Nat
  size_bytes : Nat
deriving DecidableEq, Repr

/-- `Mempool`: `map_v2` keeps the entries of the txid_v2-keyed map in
insertion order; `map_v1` and `spent` are the pure mappings of the v1
index and the claimed-prevout set. -/
structure Mempool where
  cfg : MempoolConfig
  map_v2 : List MempoolEntry
  map_v1 : List Nat → Option (List Nat)
  spent : OutPoint → Bool
  total_bytes : Nat

/-- `Mempool::new`. -/
def Mempool.new (cfg : MempoolConfig) : Mempool :=
  ⟨cfg, [], fun _ => none, fun _ => false, 0⟩

/-- The f64 fee rate `fee / size_bytes`, embedded as an exact rational
(zero when the size is zero). -/
def fee_rate (e : MempoolEntry) : ℚ :=
  if e.size_bytes = 0 then 0 else mkRat e.fee e.size_bytes

/-- `Mempool::remove_tx`. -/
def Mempool.remove_tx (M : Mempool) (txid : List Nat) : Mempool × Option MempoolEntry :=
  match M.map_v2.find? (fun e => decide (e.txid_v2 = txid)) with
  | none => (M, none)
  | some entry =>
    ({ cfg := M.cfg,
       map_v2 := M.map_v2.eraseP (fun e => decide (e.txid_v2 = txid)),
       map_v1 := fun d => if d = entry.txid_v1 then none else M.map_v1 d,
       spent := entry.tx.vin.foldl
         (fun sp i => fun op => if op = i.prevout then false else sp op) M.spent,
       total_bytes := M.total_bytes - entry.size_bytes },
     some entry)

/-- `Mempool::remove_tx_v1`. -/
def Mempool.remove_tx_v1 (M : Mempool) (txid : List Nat) : Mempool × Option MempoolEntry :=
  match M.map_v1 txid with
  | none => (M, none)
  | some v2 => M.remove_tx v2

/-- Stable ascending insertion by fee rate, modelling the stable
`sort_by` on `fee_rate` in `evict_low_fee`. -/
def insertByRate (x : MempoolEntry) : List MempoolEntry → List MempoolEntry
  | [] => [x]
  | y :: ys => if fee_rate y ≤ fee_rate x then y :: insertByRate x ys else x :: y :: ys

/-- The sorted snapshot taken by `evict_low_fee`. -/
def sortByRate (l : List MempoolEntry) : List MempoolEntry :=
  l.foldl (fun acc x => insertByRate x acc) []

/-- The eviction loop of `evict_low_fee`: remove in ascending fee-rate
order, stopping once strictly under both capacity bounds. -/
def evictLoop (M : Mempool) : List MempoolEntry → Mempool
  | [] => M
  | e :: rest =>
    let M' := (M.remove_tx e.txid_v2).1
    if M'.map_v2.length < M'.cfg.max_txs ∧ M'.total_bytes < M'.cfg.max_total_bytes then M'
    else evictLoop M' rest

/-- `Mempool::evict_low_fee` (always returns `Ok(())` in the source). -/
def Mempool.evict_low_fee (M : Mempool) : Mempool :=
  if M.map_v2.isEmpty then M else evictLoop M (sortByRate M.map_v2)

/-- The final recording step of `add_tx` (spent set, byte total, both
indexes). -/
def Mempool.record (M : Mempool) (tx : Transaction) (t1 t2 : List Nat)
    (fee size_bytes : Nat) : Mempool :=
  { cfg := M.cfg,
    map_v2 := M.map_v2 ++ [⟨tx, t1, t2, fee, size_bytes⟩],
    map_v1 := fun d => if d = t1 then some t2 else M.map_v1 d,
    spent := tx.vin.foldl
      (fun sp i => fun op => if op = i.prevout then true else sp op) M.spent,
    total_bytes := M.total_bytes + size_bytes }

/-- `Mempool::add_tx`. -/
def Mempool.add_tx (M : Mempool) (tx : Transaction) (utxos : UtxoMap) :
    Mempool × Except MempoolError Unit :=
  match tx.txid_v1 with
  | .error e => (M, .error (.utxo e))
  | .ok t1 =>
    match tx.txid_v2 with
    | .error e => (M, .error (.utxo e))
    | .ok t2 =>
      if M.map_v2.any (fun e => decide (e.txid_v2 = t2)) || (M.map_v1 t1).isSome then
        (M, .error .duplicateTx)
      else
        match tx.vin.find? (fun i => M.spent i.prevout) with
        | some i => (M, .error (.doubleSpend i.prevout))
        | none =>
          match tx.validate_value_conservation utxos with
          | .error e => (M, .error (.utxo e))
          | .ok fee =>
            match tx.canonical_bytes_v2 with
            | .error e => (M, .error (.utxo e))
            | .ok cb =>
              let size_bytes := cb.length
              let rate : ℚ :=
                if size_bytes = 0 then 0 else mkRat fee size_bytes
              if rate < M.cfg.min_fee_rate then (M, .error .lowFee)
              else if M.map_v2.length + 1 > M.cfg.max_txs ∨
                  M.total_bytes + size_bytes > M.cfg.max_total_bytes then
                let M' := M.evict_low_fee
                if M'.map_v2.length + 1 > M'.cfg.max_txs then (M', .error .full)
                else if M'.total_bytes + size_bytes > M'.cfg.max_total_bytes then
                  (M', .error .bytesLimit)
                else (M'.record tx t1 t2 fee size_bytes, .ok ())
              else (M.record tx t1 t2 fee size_bytes, .ok ())

/-! ## Pointwise lemmas about the UTXO map operations -/

/-- Last-write-wins lookup in a list of (outpoint, txout) pairs, the
pointwise meaning of folding `insert` over the list. -/
def lastVal : List (OutPoint × TxOut) → OutPoint → Option TxOut
  | [], _ => none
  | p :: rest, op =>
    match lastVal rest op with
    | some v => some v
    | none => if p.1 = op then some p.2 else none

theorem foldl_mremove_apply (l : List OutPoint) :
    ∀ (S : UtxoMap) (op : OutPoint),
      (l.foldl mremove S) op = if op ∈ l then none else S op := by
  induction l with
  | nil => intro S op; simp
  | cons a rest ih =>
    intro S op
    simp only [List.foldl_cons, ih, List.mem_cons]
    by_cases hmem : op ∈ rest
    · simp [hmem]
    · by_cases hop : op = a
      · simp [hmem, hop, mremove]
      · simp [hmem, hop, mremove]

theorem foldl_minsert_apply (l : List (OutPoint × TxOut)) :
    ∀ (S : UtxoMap) (op : OutPoint),
      (l.foldl (fun s p => minsert s p.1 p.2) S) op =
        match lastVal l op with
        | some v => some v
        | none => S op := by
  induction l with
  | nil => intro S op; simp [lastVal]
  | cons a rest ih =>
    intro S op
    simp only [List.foldl_cons, ih, lastVal]
    cases hl : lastVal rest op with
    | some v => simp
    | none =>
      by_cases hop : a.1 = op
      · simp [hop, minsert]
      · have : ¬ (op = a.1) := fun h => hop h.symm
        simp [hop, minsert, this]

theorem rollback_apply (S : UtxoMap) (r : ApplyReceipt) (op : OutPoint) :
    (rollback S r).1 op =
      match lastVal r.removed op with
      | some v => some v
      | none => if op ∈ r.inserted then none else S op := by
  show (r.removed.foldl (fun s p => minsert s p.1 p.2) (r.inserted.foldl mremove S)) op = _
  rw [foldl_minsert_apply, foldl_mremove_apply]

theorem lastVal_some_mem {l : List (OutPoint × TxOut)} {op : OutPoint} {v : TxOut} :
    lastVal l op = some v → ∃ pr ∈ l, pr.1 = op ∧ pr.2 = v := by
  induction l with
  | nil => intro h; simp [lastVal] at h
  | cons a rest ih =>
    intro h
    simp only [lastVal] at h
    cases hl : lastVal rest op with
    | some w =>
      rw [hl] at h
      simp only [Option.some_inj] at h
      obtain ⟨pr, hmem, hk, hv⟩ := ih (hl.trans (by rw [h]))
      exact ⟨pr, List.mem_cons_of_mem _ hmem, hk, hv⟩
    | none =>
      rw [hl] at h
      by_cases hop : a.1 = op
      · rw [if_pos hop, Option.some_inj] at h
        exact ⟨a, List.mem_cons_self _ _, hop, h⟩
      · rw [if_neg hop] at h
        exact absurd h (by simp)

theorem lastVal_eq_none {l : List (OutPoint × TxOut)} {op : OutPoint} :
    lastVal l op = none ↔ op ∉ l.map Prod.fst := by
  induction l with
  | nil => simp [lastVal]
  | cons a rest ih =>
    simp only [lastVal, List.map_cons, List.mem_cons]
    cases hl : lastVal rest op with
    | some v =>
      have hmem : op ∈ rest.map Prod.fst := by
        by_contra hc
        exact absurd (ih.mpr hc) (by simp [hl])
      simp [hmem]
    | none =>
      have hnot : op ∉ rest.map Prod.fst := ih.mp hl
      by_cases hop : a.1 = op
      · simp [hop]
      · have : ¬ (op = a.1) := fun h => hop h.symm
        simp [hop, this, hnot]

/-! ## Claim C9: rollback is total -/

/-- Claim C9: `InMemoryUtxoSet::rollback` is total and never fails: on any
set and any receipt (produced by an `apply_tx` or not) it returns
`Ok(())`; its resulting map removes every outpoint listed in `inserted`
(absent ones are ignored) and then re-binds every pair in `removed`
(overwriting any present binding, later pairs winning). -/
theorem rollback_total_spec (S : UtxoMap) (r : ApplyReceipt) :
    (rollback S r).2 = Except.ok () ∧
    ∀ op, (rollback S r).1 op =
      match lastVal r.removed op with
      | some v => some v
      | none => if op ∈ r.inserted then none else S op :=
  ⟨rfl, fun op => rollback_apply S r op⟩

/-! ## apply_tx loop lemmas -/

theorem foldl_minsert_congr (l : List (OutPoint × TxOut)) :
    ∀ (S T : UtxoMap), (∀ op, S op = T op) →
      ∀ op, (l.foldl (fun s p => minsert s p.1 p.2) S) op =
            (l.foldl (fun s p => minsert s p.1 p.2) T) op := by
  induction l with
  | nil => intro S T h op; simpa using h op
  | cons a rest ih =>
    intro S T h op
    simp only [List.foldl_cons]
    refine ih _ _ (fun x => ?_) op
    simp only [minsert]
    by_cases hx : x = a.1
    · simp [hx]
    · simp [hx, h x]

theorem removeLoop_error (vins : List TxIn) :
    ∀ (S : UtxoMap) (acc : List (OutPoint × TxOut)) (S' : UtxoMap) (e : UtxoError),
      removeLoop S acc vins = (S', .error e) →
      ∀ op, S' op = reinsertRev S acc op := by
  induction vins with
  | nil => intro S acc S' e h; simp [removeLoop] at h
  | cons i rest ih =>
    intro S acc S' e h op
    simp only [removeLoop] at h
    cases hS : S i.prevout with
    | none =>
      rw [hS] at h
      have h1 : reinsertRev S acc = S' := congrArg Prod.fst h
      rw [← h1]
    | some txo =>
      rw [hS] at h
      have := ih _ _ _ _ h op
      rw [this]
      show reinsertRev (mremove S i.prevout) (acc ++ [(i.prevout, txo)]) op
         = reinsertRev S acc op
      unfold reinsertRev
      rw [List.reverse_append]
      simp only [List.reverse_singleton, List.singleton_append, List.foldl_cons]
      refine foldl_minsert_congr _ _ _ (fun x => ?_) op
      simp only [minsert, mremove]
      by_cases hx : x = i.prevout
      · simp [hx, hS]
      · simp [hx]

theorem removeLoop_ok (vins : List TxIn) :
    ∀ (S : UtxoMap) (acc : List (OutPoint × TxOut)) (S' : UtxoMap)
      (rem : List (OutPoint × TxOut)),
      removeLoop S acc vins = (S', .ok rem) →
      ∃ pairs, rem = acc ++ pairs ∧
        (pairs.map Prod.fst).Nodup ∧
        (∀ pr ∈ pairs, S pr.1 = some pr.2) ∧
        (∀ op, S' op = if op ∈ pairs.map Prod.fst then none else S op) := by
  induction vins with
  | nil =>
    intro S acc S' rem h
    simp only [removeLoop, Prod.mk.injEq, Except.ok.injEq] at h
    obtain ⟨h1, h2⟩ := h
    refine ⟨[], by simp [h2.symm], by simp, by simp, ?_⟩
    intro op; simp [h1.symm]
  | cons i rest ih =>
    intro S acc S' rem h
    simp only [removeLoop] at h
    cases hS : S i.prevout with
    | none =>
      rw [hS] at h
      exact absurd (congrArg Prod.snd h) (by simp)
    | some txo =>
      rw [hS] at h
      obtain ⟨pairs', h1, h2, h3, h4⟩ := ih _ _ _ _ h
      refine ⟨(i.prevout, txo) :: pairs', by simpa using h1, ?_, ?_, ?_⟩
      · simp only [List.map_cons, List.nodup_cons]
        refine ⟨fun hmem => ?_, h2⟩
        simp only [List.mem_map] at hmem
        obtain ⟨pr, hpr, hk⟩ := hmem
        have := h3 pr hpr
        rw [hk] at this
        simp [mremove] at this
      · intro pr hpr
        rcases List.mem_cons.mp hpr with heq | hpr'
        · rw [heq]; exact hS
        · have := h3 pr hpr'
          simp only [mremove] at this
          by_cases hx : pr.1 = i.prevout
          · rw [if_pos hx] at this; exact absurd this (by simp)
          · rwa [if_neg hx] at this
      · intro op
        rw [h4 op]
        simp only [List.map_cons, List.mem_cons, mremove]
        by_cases hmem : op ∈ pairs'.map Prod.fst
        · simp [hmem]
        · by_cases hop : op = i.prevout
          · simp [hmem, hop]
          · simp [hmem, hop]

theorem rollback_inv_step (S : UtxoMap) (rem : List (OutPoint × TxOut))
    (ins : List OutPoint) (op0 : OutPoint) (txo : TxOut) (hfresh : S op0 = none) :
    ∀ op, (rollback (minsert S op0 txo) ⟨rem, ins ++ [op0]⟩).1 op
        = (rollback S ⟨rem, ins⟩).1 op := by
  intro op
  rw [rollback_apply, rollback_apply]
  cases lastVal rem op with
  | some v => rfl
  | none =>
    simp only [List.mem_append, List.mem_singleton]
    by_cases hins : op ∈ ins
    · simp [hins]
    · by_cases hop : op = op0
      · simp [hins, hop, hfresh]
      · simp [hins, hop, minsert]

theorem insertLoop_error (S0 : UtxoMap) (rem : List (OutPoint × TxOut))
    (pending : List (OutPoint × TxOut)) :
    ∀ (S : UtxoMap) (ins : List OutPoint) (F : UtxoMap) (e : UtxoError),
      (∀ op, (rollback S ⟨rem, ins⟩).1 op = S0 op) →
      insertLoop S rem ins pending = (F, .error e) →
      ∀ op, F op = S0 op := by
  induction pending with
  | nil => intro S ins F e _ h; simp [insertLoop] at h
  | cons pv rest ih =>
    intro S ins F e hinv h op
    obtain ⟨op0, txo⟩ := pv
    simp only [insertLoop] at h
    by_cases hx : (S op0).isSome
    · rw [if_pos hx] at h
      have h1 : (rollback S ⟨rem, ins⟩).1 = F := congrArg Prod.fst h
      rw [← h1]; exact hinv op
    · rw [if_neg hx] at h
      have hfresh : S op0 = none := Option.not_isSome_iff_eq_none.mp hx
      exact ih _ _ _ _
        (fun o => (rollback_inv_step S rem ins op0 txo hfresh o).trans (hinv o)) h op

theorem insertLoop_ok (S0 : UtxoMap) (rem : List (OutPoint × TxOut))
    (pending : List (OutPoint × TxOut)) :
    ∀ (S : UtxoMap) (ins : List OutPoint) (F : UtxoMap) (insAll : List OutPoint),
      (∀ op, (rollback S ⟨rem, ins⟩).1 op = S0 op) →
      insertLoop S rem ins pending = (F, .ok insAll) →
      ∀ op, (rollback F ⟨rem, insAll⟩).1 op = S0 op := by
  induction pending with
  | nil =>
    intro S ins F insAll hinv h
    simp only [insertLoop, Prod.mk.injEq, Except.ok.injEq] at h
    obtain ⟨h1, h2⟩ := h
    rw [← h1, ← h2]
    exact hinv
  | cons pv rest ih =>
    intro S ins F insAll hinv h
    obtain ⟨op0, txo⟩ := pv
    simp only [insertLoop] at h
    by_cases hx : (S op0).isSome
    · rw [if_pos hx] at h
      exact absurd (congrArg Prod.snd h) (by simp)
    · rw [if_neg hx] at h
      have hfresh : S op0 = none := Option.not_isSome_iff_eq_none.mp hx
      exact ih _ _ _ _
        (fun o => (rollback_inv_step S rem ins op0 txo hfresh o).trans (hinv o)) h

theorem entry_inv (S0 Smid : UtxoMap) (pairs : List (OutPoint × TxOut))
    (hvals : ∀ pr ∈ pairs, S0 pr.1 = some pr.2)
    (hmid : ∀ op, Smid op = if op ∈ pairs.map Prod.fst then none else S0 op) :
    ∀ op, (rollback Smid ⟨pairs, []⟩).1 op = S0 op := by
  intro op
  rw [rollback_apply]
  cases hl : lastVal pairs op with
  | some v =>
    obtain ⟨pr, hmem, hk, hv⟩ := lastVal_some_mem hl
    have := hvals pr hmem
    rw [hk, hv] at this
    exact this.symm
  | none =>
    have hnot : op ∉ pairs.map Prod.fst := lastVal_eq_none.mp hl
    simp only [List.not_mem_nil, if_false]
    rw [hmid op, if_neg hnot]

theorem make_outpoints_ok_of_validate {t : Transaction} (h : t.validate = .ok ()) :
    ∃ l, t.make_outpoints = .ok l := by
  unfold Transaction.make_outpoints Transaction.make_outpoints_v2 Transaction.txid_v2
    Transaction.canonical_bytes_v2
  rw [h]
  exact ⟨_, rfl⟩

/-- Claim C1: `InMemoryUtxoSet::apply_tx` is atomic on error: whenever it
returns an error of any kind, the resulting set maps every outpoint
exactly as the pre-call set did. -/
theorem apply_tx_atomic_on_error (S : UtxoMap) (t : Transaction) (e : UtxoError)
    (h : (apply_tx S t).2 = .error e) :
    ∀ op, (apply_tx S t).1 op = S op := by
  intro op
  unfold apply_tx at *
  cases hv : t.validate with
  | error e1 => rfl
  | ok u =>
    cases u
    rw [hv] at h; try dsimp only at h
    cases hc : t.validate_value_conservation S with
    | error e2 => rfl
    | ok fee =>
      rw [hc] at h; try dsimp only at h
      rcases hr : removeLoop S [] t.vin with ⟨S1, res1⟩
      rw [hr] at h; try dsimp only at h
      cases res1 with
      | error e3 =>
        exact removeLoop_error t.vin S [] S1 e3 hr op
      | ok removed =>
        dsimp only at h ⊢
        obtain ⟨pairs, hpairs, _, hvals, hmid⟩ := removeLoop_ok t.vin S [] S1 removed hr
        rw [List.nil_append] at hpairs
        subst hpairs
        cases hm : t.make_outpoints with
        | error e4 =>
          obtain ⟨l, hl⟩ := make_outpoints_ok_of_validate hv
          rw [hm] at hl; exact absurd hl (by simp)
        | ok outpoints =>
          rw [hm] at h; try dsimp only at h
          dsimp only
          rcases hi : insertLoop S1 removed [] (outpoints.zip t.vout) with ⟨S2, res2⟩
          rw [hi] at h; try dsimp only at h
          cases res2 with
          | error e5 =>
            exact insertLoop_error S removed (outpoints.zip t.vout) S1 [] S2 e5
              (entry_inv S S1 removed hvals hmid) hi op
          | ok inserted => exact absurd h (by simp)

/-- Claim C2: on success, `rollback` of the returned receipt restores the
pre-call set exactly: each inserted outpoint is removed, each removed
pair is re-inserted, and the resulting map equals the original. -/
theorem apply_tx_rollback_roundtrip (S : UtxoMap) (t : Transaction) (r : ApplyReceipt)
    (h : (apply_tx S t).2 = .ok r) :
    ∀ op, (rollback (apply_tx S t).1 r).1 op = S op := by
  intro op
  unfold apply_tx at *
  cases hv : t.validate with
  | error e1 => rw [hv] at h; exact absurd h (by simp)
  | ok u =>
    cases u
    rw [hv] at h; try dsimp only at h
    cases hc : t.validate_value_conservation S with
    | error e2 => rw [hc] at h; exact absurd h (by simp)
    | ok fee =>
      rw [hc] at h; try dsimp only at h
      rcases hr : removeLoop S [] t.vin with ⟨S1, res1⟩
      rw [hr] at h; try dsimp only at h
      cases res1 with
      | error e3 => exact absurd h (by simp)
      | ok removed =>
        dsimp only at h ⊢
        obtain ⟨pairs, hpairs, _, hvals, hmid⟩ := removeLoop_ok t.vin S [] S1 removed hr
        rw [List.nil_append] at hpairs
        subst hpairs
        cases hm : t.make_outpoints with
        | error e4 => rw [hm] at h; exact absurd h (by simp)
        | ok outpoints =>
          rw [hm] at h; try dsimp only at h
          dsimp only
          rcases hi : insertLoop S1 removed [] (outpoints.zip t.vout) with ⟨S2, res2⟩
          rw [hi] at h; try dsimp only at h
          cases res2 with
          | error e5 => exact absurd h (by simp)
          | ok inserted =>
            simp only [Except.ok.injEq] at h
            subst h
            exact insertLoop_ok S removed (outpoints.zip t.vout) S1 [] S2 inserted
              (entry_inv S S1 removed hvals hmid) hi op

instance {e a : Type} [DecidableEq e] [DecidableEq a] : DecidableEq (Except e a) :=
  fun x y =>
    match x, y with
    | .ok u, .ok v =>
      if h : u = v then isTrue (by rw [h]) else
        isFalse (fun hc => h (by injection hc))
    | .error u, .error v =>
      if h : u = v then isTrue (by rw [h]) else
        isFalse (fun hc => h (by injection hc))
    | .ok _, .error _ => isFalse (fun hc => Except.noConfusion hc)
    | .error _, .ok _ => isFalse (fun hc => Except.noConfusion hc)

/-! ## Concrete witnesses for the apply_tx claims -/

/-- Outpoint preloaded for the C1 witness. -/
def w1op : OutPoint := ⟨List.replicate 32 1, 0⟩

/-- Pre-state for the C1 witness. -/
def w1S : UtxoMap := fun op => if op = w1op then some ⟨10, []⟩ else none

/-- A duplicate-input transaction: `apply_tx` must reject it. -/
def w1tx : Transaction := ⟨1, [⟨w1op, [], 0⟩, ⟨w1op, [], 0⟩], [], 0⟩

/-- Witness for C1 at a concrete failing input. -/
theorem apply_tx_atomic_on_error_witness :
    (apply_tx w1S w1tx).2 = .error (.duplicateInput w1op) ∧
    ∀ op, (apply_tx w1S w1tx).1 op = w1S op :=
  ⟨by decide, apply_tx_atomic_on_error w1S w1tx (.duplicateInput w1op) (by decide)⟩

/-- Outpoint preloaded for the C2 witness. -/
def w2op : OutPoint := ⟨List.replicate 32 5, 0⟩

/-- Pre-state for the C2 witness: one UTXO worth 100. -/
def w2S : UtxoMap := fun op => if op = w2op then some ⟨100, [97]⟩ else none

/-- A transaction spending the preloaded UTXO into outputs 60 and 39. -/
def w2tx : Transaction := ⟨1, [⟨w2op, [], 0⟩], [⟨60, [98]⟩, ⟨39, [99]⟩], 0⟩

/-- The receipt actually returned by the successful apply. -/
def w2receipt : ApplyReceipt :=
  match (apply_tx w2S w2tx).2 with
  | .ok r => r
  | .error _ => ⟨[], []⟩

/-- Witness for C2 at a concrete successful input. -/
theorem apply_tx_rollback_roundtrip_witness :
    (apply_tx w2S w2tx).2 = .ok w2receipt ∧
    ∀ op, (rollback (apply_tx w2S w2tx).1 w2receipt).1 op = w2S op :=
  ⟨by decide, apply_tx_rollback_roundtrip w2S w2tx w2receipt (by decide)⟩

/-! ## Claim C6: the sighash ignores script_sig contents -/

/-- Two transactions equal in every field except the contents of their
inputs' `script_sig` byte strings. -/
def SameExceptSigs (t1 t2 : Transaction) : Prop :=
  t1.version = t2.version ∧ t1.lock_time = t2.lock_time ∧ t1.vout = t2.vout ∧
  List.Forall₂ (fun a b : TxIn => a.prevout = b.prevout ∧ a.sequence = b.sequence)
    t1.vin t2.vin

theorem map_clear_eq_of_forall2 :
    ∀ {l1 l2 : List TxIn},
      List.Forall₂ (fun a b : TxIn => a.prevout = b.prevout ∧ a.sequence = b.sequence) l1 l2 →
      l1.map (fun i => { i with script_sig := [] })
        = l2.map (fun i => { i with script_sig := [] }) := by
  intro l1 l2 hf
  induction hf with
  | nil => rfl
  | @cons a b as bs hab _ ih =>
    obtain ⟨hp, hs⟩ := hab
    simp only [List.map_cons, ih, List.cons.injEq, and_true]
    cases a; cases b; simp_all

theorem clearScriptSigs_eq_of_sameExceptSigs {t1 t2 : Transaction}
    (h : SameExceptSigs t1 t2) : clearScriptSigs t1 = clearScriptSigs t2 := by
  obtain ⟨hv, hl, ho, hf⟩ := h
  unfold clearScriptSigs
  rw [Transaction.mk.injEq]
  exact ⟨hv, map_clear_eq_of_forall2 hf, ho, hl⟩

/-- Claim C6: `sighash_v2` depends only on non-script fields: (a) any two
transactions within script bounds that differ only in their inputs'
`script_sig` contents have the same sighash; (b) the sighash of any
transaction is the `txid_v2` of the transaction with every `script_sig`
replaced by the empty byte string. -/
theorem sighash_ignores_script_sig :
    (∀ t1 t2 : Transaction, t1.validate = .ok () → t2.validate = .ok () →
      SameExceptSigs t1 t2 → tx_sighash_v2 t1 = tx_sighash_v2 t2) ∧
    (∀ t : Transaction, tx_sighash_v2 t = (clearScriptSigs t).txid_v2) := by
  constructor
  · intro t1 t2 _ _ h
    unfold tx_sighash_v2
    rw [clearScriptSigs_eq_of_sameExceptSigs h]
  · intro t
    rfl

/-- Two concrete transactions differing only in script_sig contents. -/
def w6tx1 : Transaction := ⟨1, [⟨w1op, [1, 2, 3], 7⟩], [⟨5, [9]⟩], 3⟩

/-- The same transaction with a different signature script. -/
def w6tx2 : Transaction := ⟨1, [⟨w1op, [250], 7⟩], [⟨5, [9]⟩], 3⟩

/-- Witness for C6 at a concrete input pair. -/
theorem sighash_ignores_script_sig_witness :
    tx_sighash_v2 w6tx1 = tx_sighash_v2 w6tx2 ∧
    tx_sighash_v2 w6tx1 = (clearScriptSigs w6tx1).txid_v2 :=
  ⟨sighash_ignores_script_sig.1 w6tx1 w6tx2 (by decide) (by decide)
      ⟨rfl, rfl, rfl, List.Forall₂.cons ⟨rfl, rfl⟩ List.Forall₂.nil⟩,
    sighash_ignores_script_sig.2 w6tx1⟩

/-! ## Claim C3: coinbase apply is not atomic on collision (code bug) -/

/-- A coinbase transaction with two outputs. -/
def cbTx : Transaction := ⟨1, [], [⟨50, []⟩, ⟨50, [1]⟩], 0⟩

/-- Its v2 txid. -/
def cbTxid : List Nat :=
  match cbTx.txid_v2 with
  | .ok d => d
  | .error _ => []

/-- Pre-state holding a UTXO exactly at the coinbase's second outpoint,
so the coinbase apply collides on output index 1. -/
def cbS : UtxoMap := fun op => if op = ⟨cbTxid, 1⟩ then some ⟨999, []⟩ else none

/-- Claim C3 (code bug evidence): `apply_coinbase` fails on the collision
at output 1, yet leaves output 0 of the coinbase inserted, so the
post-state differs from the pre-state on a failed call. -/
theorem apply_coinbase_leaves_partial_outputs :
    (apply_coinbase cbS cbTx).2 = .error (.invalidBlock "coinbase output exists") ∧
    (apply_coinbase cbS cbTx).1 ⟨cbTxid, 0⟩ = some ⟨50, []⟩ ∧
    cbS ⟨cbTxid, 0⟩ = none := by
  refine ⟨by decide, by decide, by decide⟩

/-! ## Claim C7: check_pow monotonicity in bits -/

theorem foldl_shaRound_length (l : List (Nat × Nat)) :
    ∀ st : List Nat, st.length = 8 → (l.foldl shaRound st).length = 8 := by
  induction l with
  | nil => intro st h; simpa using h
  | cons a rest ih =>
    intro st h
    simp only [List.foldl_cons]
    exact ih (shaRound st a) rfl

theorem shaCompress_length (st block : List Nat) (h : st.length = 8) :
    (shaCompress st block).length = 8 := by
  unfold shaCompress
  rw [List.length_map, List.length_zip, h,
    foldl_shaRound_length _ st h]
  rfl

theorem foldl_shaCompress_length (blocks : List (List Nat)) :
    ∀ st : List Nat, st.length = 8 → (blocks.foldl shaCompress st).length = 8 := by
  induction blocks with
  | nil => intro st h; simpa using h
  | cons b rest ih =>
    intro st h
    simp only [List.foldl_cons]
    exact ih _ (shaCompress_length st b h)

theorem foldr_u32be_length (l : List Nat) :
    (l.foldr (fun w acc => u32be w ++ acc) []).length = 4 * l.length := by
  induction l with
  | nil => rfl
  | cons a rest ih =>
    simp only [List.foldr_cons, List.length_append, ih, List.length_cons]
    show 4 + 4 * rest.length = 4 * (rest.length + 1)
    omega

theorem sha256_length (msg : List Nat) : (sha256 msg).length = 32 := by
  unfold sha256
  rw [foldr_u32be_length, foldl_shaCompress_length _ shaH0 rfl]

theorem header_hash_length (h : BlockHeader) : (header_hash h).length = 32 :=
  sha256_length _

theorem bits_to_target_length {b : Nat} {t : List Nat}
    (h : bits_to_target b = .ok t) : t.length = 32 := by
  unfold bits_to_target at h
  by_cases h0 : b = 0
  · rw [if_pos h0] at h; exact absurd h (by simp)
  · rw [if_neg h0] at h
    by_cases hm : b &&& 0x007fffff = 0
    · rw [if_pos hm] at h; exact absurd h (by simp)
    · rw [if_neg hm] at h
      by_cases he : b >>> 24 ≤ 3
      · rw [if_pos he] at h
        simp only [Except.ok.injEq] at h
        subst h
        simp only [List.length_append, List.length_replicate, List.length_drop]
        show 32 - (b >>> 24) + (4 - (4 - (b >>> 24))) = 32
        omega
      · rw [if_neg he] at h
        by_cases hgt : b >>> 24 > 32
        · rw [if_pos hgt] at h; exact absurd h (by simp)
        · rw [if_neg hgt] at h
          by_cases hs : 32 - (b >>> 24) + 3 > 32
          · rw [if_pos hs] at h; exact absurd h (by simp)
          · rw [if_neg hs] at h
            simp only [Except.ok.injEq] at h
            subst h
            simp only [List.length_append, List.length_replicate, List.length_cons,
              List.length_nil]
            omega

theorem hash_leq_trans :
    ∀ (a b c : List Nat), a.length = b.length → b.length = c.length →
      hash_leq a b = true → hash_leq b c = true → hash_leq a c = true := by
  intro a
  induction a with
  | nil => intro b c _ _ _ _; rfl
  | cons x xs ih =>
    intro b c hab hbc h1 h2
    cases b with
    | nil => simp at hab
    | cons y ys =>
      cases c with
      | nil => simp at hbc
      | cons z zs =>
        simp only [hash_leq] at h1 h2 ⊢
        by_cases hxy : x < y
        · by_cases hyz : y < z
          · simp [show x < z from Nat.lt_trans hxy hyz]
          · by_cases hzy : z < y
            · simp [hyz, hzy] at h2
            · have : y = z := by omega
              simp [show x < z from this ▸ hxy]
        · by_cases hyx : y < x
          · simp [hxy, hyx] at h1
          · have hxy' : x = y := by omega
            by_cases hyz : y < z
            · simp [show x < z from hxy' ▸ hyz]
            · by_cases hzy : z < y
              · simp [hyz, hzy] at h2
              · have hyz' : y = z := by omega
                have hxz : x = z := hxy'.trans hyz'
                simp only [show ¬ x < z from by omega, if_neg, show ¬ z < x from by omega]
                simp only [hxy, hyx, if_neg] at h1
                simp only [hyz, hzy, if_neg] at h2
                have hlen1 : xs.length = ys.length := by simpa using hab
                have hlen2 : ys.length = zs.length := by simpa using hbc
                simp [ih ys zs hlen1 hlen2 (by simpa using h1) (by simpa using h2)]

/-- Amended claim C7: with the header hash held fixed, lowering the
target never turns a failing comparison into a passing one: if
`check_pow h` fails and `b'` decodes to a target not above `h`'s own,
then `h`'s hash also exceeds the lower target. -/
theorem check_pow_monotone_fixed_hash (h : BlockHeader) (b' : Nat)
    (t t' : List Nat)
    (ht : bits_to_target h.bits = .ok t)
    (ht' : bits_to_target b' = .ok t')
    (hle : hash_leq t' t = true)
    (hfail : check_pow h = .ok false) :
    hash_leq (header_hash h) t' = false := by
  unfold check_pow at hfail
  rw [ht] at hfail
  simp only [Except.ok.injEq] at hfail
  by_contra hc
  have hpass : hash_leq (header_hash h) t' = true := by
    cases hq : hash_leq (header_hash h) t' with
    | false => exact absurd hq hc
    | true => rfl
  have hlen1 : (header_hash h).length = t'.length := by
    rw [header_hash_length, bits_to_target_length ht']
  have hlen2 : t'.length = t.length := by
    rw [bits_to_target_length ht', bits_to_target_length ht]
  have := hash_leq_trans (header_hash h) t' t hlen1 hlen2 hpass hle
  rw [this] at hfail
  exact Bool.noConfusion hfail

/-- The mined counterexample header: fails PoW at its own bits. -/
def c7h : BlockHeader := ⟨1, List.replicate 32 0, List.replicate 32 2, 0, 0x207fffff, 56⟩

/-- The same header with its bits replaced by a strictly lower target. -/
def c7hLow : BlockHeader := { c7h with bits := 0x1f7fffff }

/-- Decoded target of the original bits. -/
def c7t : List Nat :=
  match bits_to_target 0x207fffff with
  | .ok t => t
  | .error _ => []

/-- Decoded target of the replacement bits. -/
def c7tLow : List Nat :=
  match bits_to_target 0x1f7fffff with
  | .ok t => t
  | .error _ => []

/-- Counterexample to claim C7 as stated: `c7h` fails `check_pow` under
its bits, the replacement bits decode to a strictly lower target, and
yet the header with the replaced bits passes `check_pow` (its hash
changes because `bits` is part of the hashed bytes). -/
theorem check_pow_not_monotone_in_bits :
    bits_to_target c7h.bits = .ok c7t ∧
    bits_to_target c7hLow.bits = .ok c7tLow ∧
    hash_leq c7t c7tLow = false ∧
    check_pow c7h = .ok false ∧
    check_pow c7hLow = .ok true := by
  refine ⟨by decide, by decide, by decide, by decide, by decide⟩

/-- Witness for the amended C7 at a concrete input. -/
theorem check_pow_monotone_fixed_hash_witness :
    (bits_to_target c7h.bits = .ok c7t ∧ bits_to_target 0x1f7fffff = .ok c7tLow ∧
      hash_leq c7tLow c7t = true ∧ check_pow c7h = .ok false) ∧
    hash_leq (header_hash c7h) c7tLow = false :=
  ⟨⟨by decide, by decide, by decide, by decide⟩,
    check_pow_monotone_fixed_hash c7h 0x1f7fffff c7t c7tLow
      (by decide) (by decide) (by decide) (by decide)⟩

/-! ## Claim C5: difficulty retarget and bits enforcement -/

theorem expected_bits_nonboundary (c : ChainState) (p : BlockHeader) (height : Nat)
    (h : height = 0 ∨ height % DIFFICULTY_WINDOW ≠ 0) :
    c.expected_bits (some p) height = .ok p.bits := by
  unfold ChainState.expected_bits
  dsimp only
  rw [if_pos h]

theorem expected_bits_boundary (c : ChainState) (p ws : BlockHeader) (height : Nat)
    (ws_hash : List Nat) (pt : Nat)
    (h0 : ¬ (height = 0 ∨ height % DIFFICULTY_WINDOW ≠ 0))
    (hfind : (c.heights.find? (fun q => decide (q.2 = height - DIFFICULTY_WINDOW))).map
        (fun q => q.1) = some ws_hash)
    (hhdr : alookup c.headers ws_hash = some ws)
    (hpt : bits_to_target_u128 p.bits = .ok pt) :
    c.expected_bits (some p) height =
      .ok (target_to_bits (min ((min (pt * (p.time - ws.time)) u128max) /
        max (TARGET_BLOCK_TIME_SECS * DIFFICULTY_WINDOW) 1) pt)) := by
  unfold ChainState.expected_bits
  dsimp only
  rw [if_neg h0]
  try dsimp only
  rw [hfind]
  dsimp only
  rw [hhdr]
  dsimp only
  rw [hpt]
  dsimp only
  congr 2
  by_cases hgt : (min (pt * (p.time - ws.time)) u128max) /
      (max (TARGET_BLOCK_TIME_SECS * DIFFICULTY_WINDOW) 1) > pt
  · rw [if_pos hgt]
    exact (Nat.min_eq_right (Nat.le_of_lt hgt)).symm
  · rw [if_neg hgt]
    exact (Nat.min_eq_left (Nat.le_of_not_lt hgt)).symm

theorem prevChecksStep_errors_of_wrong_bits (header prev : BlockHeader)
    (eb : Nat) (hne : header.bits ≠ eb) :
    ∃ e, prevChecksStep header (some prev) eb = .error e := by
  unfold prevChecksStep
  dsimp only
  by_cases ht : header.time < prev.time
  · rw [if_pos ht]
    exact ⟨_, rfl⟩
  · rw [if_neg ht, if_pos hne]
    exact ⟨_, rfl⟩

theorem validate_header_rules_errors_of_wrong_bits (header prev : BlockHeader)
    (no_pow : Bool) (eb now : Nat) (hne : header.bits ≠ eb) :
    ∃ e, validate_header_rules header (some prev) no_pow eb now = .error e := by
  unfold validate_header_rules
  cases hp : powCheckStep header no_pow with
  | error e => exact ⟨e, rfl⟩
  | ok u =>
    cases u
    by_cases hb : header.bits = 0
    · rw [if_pos hb]
      exact ⟨_, rfl⟩
    · rw [if_neg hb]
      obtain ⟨e, he⟩ := prevChecksStep_errors_of_wrong_bits header prev eb hne
      rw [he]
      exact ⟨e, rfl⟩

theorem validate_header_rules_wrong_bits_named (header prev : BlockHeader)
    (no_pow : Bool) (eb now : Nat)
    (hpow : no_pow = true ∨ check_pow header = .ok true)
    (hb0 : header.bits ≠ 0)
    (ht : ¬ header.time < prev.time)
    (hne : header.bits ≠ eb) :
    validate_header_rules header (some prev) no_pow eb now =
      .error (.invalidBlock "unexpected difficulty bits") := by
  have hPowOk : powCheckStep header no_pow = .ok () := by
    unfold powCheckStep
    rcases hpow with h | h
    · rw [if_pos h]
    · by_cases hnp : no_pow
      · rw [if_pos hnp]
      · rw [if_neg hnp, h]
  have hPrev : prevChecksStep header (some prev) eb =
      .error (.invalidBlock "unexpected difficulty bits") := by
    unfold prevChecksStep
    dsimp only
    rw [if_neg ht, if_pos hne]
  unfold validate_header_rules
  rw [hPowOk]
  dsimp only
  rw [if_neg hb0, hPrev]

theorem add_header_rejects_wrong_bits (c : ChainState) (h : BlockHeader)
    (no_pow : Bool) (now : Nat) (prev_h : Nat) (ph : BlockHeader) (eb : Nat)
    (hfresh : alookup c.headers (header_hash h) = none)
    (hph : alookup c.heights h.prev_block_hash = some prev_h)
    (hphh : alookup c.headers h.prev_block_hash = some ph)
    (heb : c.expected_bits (some ph) (prev_h + 1) = .ok eb)
    (hne : h.bits ≠ eb) :
    (c.add_header h no_pow now).1 = c ∧
    ∃ e, (c.add_header h no_pow now).2 = .error e := by
  obtain ⟨e, hval⟩ := validate_header_rules_errors_of_wrong_bits h ph no_pow eb now hne
  unfold ChainState.add_header
  dsimp only
  rw [hfresh]
  dsimp only [Option.isSome_none]
  rw [if_neg (by simp)]
  rw [hph]
  dsimp only
  rw [hphh]
  dsimp only
  rw [heb]
  dsimp only
  rw [hval]
  exact ⟨rfl, ⟨e, rfl⟩⟩

/-- Claim C5 (amended): with a parent present, (1) off retarget
boundaries `expected_bits` is the parent's bits; (2) on a boundary the
new target is `(parent_target ⊛ actual) / max(expected, 1)` where `⊛` is
the saturating u128 multiplication, clamped to the parent's target (so
difficulty never decreases); (3) `add_header` on a not-yet-known header
whose parent exists fails whenever the header's bits differ from the
expected value, leaving the chain unchanged; and (4) the error is the
unexpected-difficulty-bits error whenever the PoW, nonzero-bits and
time-monotonicity checks pass. -/
theorem retarget_and_bits_enforcement :
    (∀ (c : ChainState) (p : BlockHeader) (height : Nat),
      height = 0 ∨ height % DIFFICULTY_WINDOW ≠ 0 →
      c.expected_bits (some p) height = .ok p.bits) ∧
    (∀ (c : ChainState) (p ws : BlockHeader) (height : Nat) (ws_hash : List Nat) (pt : Nat),
      ¬ (height = 0 ∨ height % DIFFICULTY_WINDOW ≠ 0) →
      (c.heights.find? (fun q => decide (q.2 = height - DIFFICULTY_WINDOW))).map
        (fun q => q.1) = some ws_hash →
      alookup c.headers ws_hash = some ws →
      bits_to_target_u128 p.bits = .ok pt →
      c.expected_bits (some p) height =
        .ok (target_to_bits (min ((min (pt * (p.time - ws.time)) u128max) /
          max (TARGET_BLOCK_TIME_SECS * DIFFICULTY_WINDOW) 1) pt))) ∧
    (∀ (c : ChainState) (h : BlockHeader) (no_pow : Bool) (now prev_h : Nat)
      (ph : BlockHeader) (eb : Nat),
      alookup c.headers (header_hash h) = none →
      alookup c.heights h.prev_block_hash = some prev_h →
      alookup c.headers h.prev_block_hash = some ph →
      c.expected_bits (some ph) (prev_h + 1) = .ok eb →
      h.bits ≠ eb →
      (c.add_header h no_pow now).1 = c ∧ ∃ e, (c.add_header h no_pow now).2 = .error e) ∧
    (∀ (header prev : BlockHeader) (no_pow : Bool) (eb now : Nat),
      no_pow = true ∨ check_pow header = .ok true →
      header.bits ≠ 0 → ¬ header.time < prev.time → header.bits ≠ eb →
      validate_header_rules header (some prev) no_pow eb now =
        .error (.invalidBlock "unexpected difficulty bits")) :=
  ⟨fun c p height h => expected_bits_nonboundary c p height h,
   fun c p ws height ws_hash pt h0 hf hh hp =>
     expected_bits_boundary c p ws height ws_hash pt h0 hf hh hp,
   fun c h no_pow now prev_h ph eb hfresh hph hphh heb hne =>
     add_header_rejects_wrong_bits c h no_pow now prev_h ph eb hfresh hph hphh heb hne,
   fun header prev no_pow eb now hpow hb0 ht hne =>
     validate_header_rules_wrong_bits_named header prev no_pow eb now hpow hb0 ht hne⟩

/-- Modelled from the spec: the claim's retarget formula
`clamp(parent_target · actual / max(expected, 1), 0, parent_target)` in
exact (unbounded) arithmetic, re-encoded with `target_to_bits`; written
only to be compared against the code's `expected_bits`. -/
def specRetargetBits (parent_target actual expected : Nat) : Nat :=
  target_to_bits (min (parent_target * actual / max expected 1) parent_target)

/-- Hash key of the window-start header in the concrete chain. -/
def c5gHash : List Nat := List.replicate 32 8

/-- Hash key of the parent header in the concrete chain. -/
def c5pHash : List Nat := List.replicate 32 9

/-- Window-start header (height 0) at time 1000 with the initial bits. -/
def c5g : BlockHeader := ⟨1, List.replicate 32 0, List.replicate 32 0, 1000, INITIAL_BITS, 0⟩

/-- Parent header (height 9), exactly on schedule: its time is the
window start plus the full expected window time. -/
def c5prev : BlockHeader := ⟨1, List.replicate 32 3, List.replicate 32 0, 7000, INITIAL_BITS, 0⟩

/-- A concrete chain state holding the window start at height 0 and the
parent at height 9. -/
def c5chain : ChainState :=
  ⟨[(c5gHash, c5g), (c5pHash, c5prev)], [(c5gHash, 0), (c5pHash, 9)], [], c5pHash⟩

/-- Counterexample to claim C5 as stated: at the first retarget boundary
of the default-difficulty chain, the parent target decodes to
`u128::MAX`, the saturating multiplication collapses, and the code's
expected bits encode `u128::MAX / 6000` even though the window ran
exactly on schedule; the claim's formula (exact product, clamped) would
keep the parent target unchanged. -/
theorem expected_bits_diverges_from_spec_formula :
    c5chain.expected_bits (some c5prev) 10 = .ok (target_to_bits (u128max / 6000)) ∧
    bits_to_target_u128 c5prev.bits = .ok u128max ∧
    c5prev.time - c5g.time = TARGET_BLOCK_TIME_SECS * DIFFICULTY_WINDOW ∧
    specRetargetBits u128max (c5prev.time - c5g.time)
      (TARGET_BLOCK_TIME_SECS * DIFFICULTY_WINDOW) = 0x107fffff ∧
    target_to_bits (u128max / 6000) ≠ 0x107fffff := by
  refine ⟨by decide, by decide, by decide, by decide, by decide⟩

/-- The code's expected bits at the concrete boundary. -/
def c5eb : Nat := target_to_bits (u128max / 6000)

/-- A fresh header on top of the concrete chain whose bits differ from
the expected value. -/
def c5bad : BlockHeader := ⟨1, c5pHash, List.replicate 32 0, 7000, 0, 0⟩

/-- A small header pair for the named-error conjunct. -/
def c6hdr : BlockHeader := ⟨1, List.replicate 32 0, List.replicate 32 0, 100, 5, 0⟩

/-- Its parent for the named-error conjunct. -/
def c6prev : BlockHeader := ⟨1, List.replicate 32 0, List.replicate 32 0, 50, 7, 0⟩

/-- Witness for the amended C5 at concrete inputs. -/
theorem retarget_and_bits_enforcement_witness :
    c5chain.expected_bits (some c5prev) 5 = .ok c5prev.bits ∧
    c5chain.expected_bits (some c5prev) 10 =
      .ok (target_to_bits (min ((min (u128max * (c5prev.time - c5g.time)) u128max) /
        max (TARGET_BLOCK_TIME_SECS * DIFFICULTY_WINDOW) 1) u128max)) ∧
    ((c5chain.add_header c5bad true 0).1 = c5chain ∧
      ∃ e, (c5chain.add_header c5bad true 0).2 = .error e) ∧
    validate_header_rules c6hdr (some c6prev) true 7 0 =
      .error (.invalidBlock "unexpected difficulty bits") :=
  ⟨retarget_and_bits_enforcement.1 c5chain c5prev 5 (Or.inr (by decide)),
   retarget_and_bits_enforcement.2.1 c5chain c5prev c5g 10 c5gHash u128max
     (by decide) (by decide) (by decide) (by decide),
   retarget_and_bits_enforcement.2.2.1 c5chain c5bad true 0 9 c5prev c5eb
     (by decide) (by decide) (by decide) (by decide) (by decide),
   retarget_and_bits_enforcement.2.2.2 c6hdr c6prev true 7 0
     (Or.inl rfl) (by decide) (by decide) (by decide)⟩

/-! ## Mempool invariant (claims C4, C8, C10) -/

/-- The prevouts claimed by a transaction's inputs. -/
def prevouts (t : Transaction) : List OutPoint := t.vin.map (fun i => i.prevout)

theorem foldl_spentTrue_apply (l : List TxIn) :
    ∀ (sp : OutPoint → Bool) (op : OutPoint),
      (l.foldl (fun sp i => fun op => if op = i.prevout then true else sp op) sp) op
        = if op ∈ l.map (fun i => i.prevout) then true else sp op := by
  induction l with
  | nil => intro sp op; simp
  | cons a rest ih =>
    intro sp op
    simp only [List.foldl_cons, ih, List.map_cons, List.mem_cons]
    by_cases hmem : op ∈ rest.map (fun i => i.prevout)
    · simp [hmem]
    · by_cases hop : op = a.prevout
      · simp [hmem, hop]
      · simp [hmem, hop]

theorem foldl_spentFalse_apply (l : List TxIn) :
    ∀ (sp : OutPoint → Bool) (op : OutPoint),
      (l.foldl (fun sp i => fun op => if op = i.prevout then false else sp op) sp) op
        = if op ∈ l.map (fun i => i.prevout) then false else sp op := by
  induction l with
  | nil => intro sp op; simp
  | cons a rest ih =>
    intro sp op
    simp only [List.foldl_cons, ih, List.map_cons, List.mem_cons]
    by_cases hmem : op ∈ rest.map (fun i => i.prevout)
    · simp [hmem]
    · by_cases hop : op = a.prevout
      · simp [hmem, hop]
      · simp [hmem, hop]

/-- No outpoint is claimed by the inputs of both entries. -/
def EntriesDisjoint (e1 e2 : MempoolEntry) : Prop :=
  ∀ op, op ∈ prevouts e1.tx → op ∉ prevouts e2.tx

/-- The inductive mempool invariant: the claimed three conditions (spent
set is exactly the union of resident prevouts, the v1 index is exactly
the resident txid_v1 → txid_v2 mapping, total_bytes is the sum of
resident sizes), together with the structural facts the `HashMap`s and
the admission checks maintain (distinct keys under both txid variants,
and no prevout claimed by two resident entries). -/
def MempoolInv (M : Mempool) : Prop :=
  (∀ op, M.spent op = true ↔ ∃ e ∈ M.map_v2, op ∈ prevouts e.tx) ∧
  (∀ e ∈ M.map_v2, M.map_v1 e.txid_v1 = some e.txid_v2) ∧
  (∀ d d2, M.map_v1 d = some d2 → ∃ e ∈ M.map_v2, e.txid_v1 = d ∧ e.txid_v2 = d2) ∧
  (M.total_bytes = (M.map_v2.map (fun e => e.size_bytes)).sum) ∧
  (M.map_v2.map (fun e => e.txid_v2)).Nodup ∧
  (M.map_v2.map (fun e => e.txid_v1)).Nodup ∧
  M.map_v2.Pairwise EntriesDisjoint

theorem mempool_inv_empty (cfg : MempoolConfig) : MempoolInv (Mempool.new cfg) := by
  refine ⟨fun op => ?_, ?_, ?_, rfl, ?_, ?_, ?_⟩ <;> simp [Mempool.new]

theorem find?_eraseP_split {l : List MempoolEntry} {p : MempoolEntry → Bool}
    {entry : MempoolEntry} (hf : l.find? p = some entry) :
    ∃ l1 l2, l = l1 ++ entry :: l2 ∧ (∀ x ∈ l1, p x = false) ∧
      l.eraseP p = l1 ++ l2 := by
  induction l with
  | nil => simp at hf
  | cons a rest ih =>
    by_cases hpa : p a
    · rw [List.find?_cons_of_pos _ hpa, Option.some_inj] at hf
      subst hf
      exact ⟨[], rest, rfl, by simp, by simp [List.eraseP_cons, hpa]⟩
    · rw [List.find?_cons_of_neg _ (by simpa using hpa)] at hf
      obtain ⟨l1, l2, hl, hl1, he⟩ := ih hf
      refine ⟨a :: l1, l2, by simp [hl], ?_, ?_⟩
      · intro x hx
        rcases List.mem_cons.mp hx with h | h
        · subst h; simpa using hpa
        · exact hl1 x h
      · simp [List.eraseP_cons, hpa, he]

theorem remove_tx_preserves_inv (M : Mempool) (txid : List Nat) (h : MempoolInv M) :
    MempoolInv (M.remove_tx txid).1 := by
  obtain ⟨hspent, hv1f, hv1b, hbytes, hnd2, hnd1, hdisj⟩ := h
  unfold Mempool.remove_tx
  cases hf : M.map_v2.find? (fun e => decide (e.txid_v2 = txid)) with
  | none => exact ⟨hspent, hv1f, hv1b, hbytes, hnd2, hnd1, hdisj⟩
  | some entry =>
    obtain ⟨l1, l2, hl, _, he⟩ := find?_eraseP_split hf
    have hsub : (l1 ++ l2).Sublist (l1 ++ entry :: l2) :=
      List.Sublist.append_left (List.sublist_cons_self entry l2) l1
    have hmemL : ∀ e ∈ l1 ++ l2, e ∈ M.map_v2 := by
      intro e hmem; rw [hl]; exact hsub.mem hmem
    have hentry_mem : entry ∈ M.map_v2 := by
      rw [hl]; exact List.mem_append_right _ (List.mem_cons_self _ _)
    have hnd2' : ((l1 ++ entry :: l2).map (fun e => e.txid_v2)).Nodup := by
      rw [← hl]; exact hnd2
    have hnd1' : ((l1 ++ entry :: l2).map (fun e => e.txid_v1)).Nodup := by
      rw [← hl]; exact hnd1
    have hkey2 : entry.txid_v2 ∉ (l1 ++ l2).map (fun e => e.txid_v2) := by
      rw [List.map_append] at hnd2' ⊢
      simp only [List.map_cons] at hnd2'
      have := List.nodup_middle.mp hnd2'
      exact (List.nodup_cons.mp this).1
    have hkey1 : entry.txid_v1 ∉ (l1 ++ l2).map (fun e => e.txid_v1) := by
      rw [List.map_append] at hnd1' ⊢
      simp only [List.map_cons] at hnd1'
      have := List.nodup_middle.mp hnd1'
      exact (List.nodup_cons.mp this).1
    have hne2 : ∀ e ∈ l1 ++ l2, e.txid_v2 ≠ entry.txid_v2 := by
      intro e hmem heq
      exact hkey2 (heq ▸ List.mem_map_of_mem _ hmem)
    have hne1 : ∀ e ∈ l1 ++ l2, e.txid_v1 ≠ entry.txid_v1 := by
      intro e hmem heq
      exact hkey1 (heq ▸ List.mem_map_of_mem _ hmem)
    have hentry_notL : entry ∉ l1 ++ l2 := fun hmem => hne2 entry hmem rfl
    have hdisj' : (l1 ++ entry :: l2).Pairwise EntriesDisjoint := by
      rw [← hl]; exact hdisj
    have hdisjE : ∀ e ∈ l1 ++ l2, ∀ op, op ∈ prevouts e.tx → op ∉ prevouts entry.tx := by
      intro e hmem op hop
      obtain ⟨d1, d2, d3⟩ := List.pairwise_append.mp hdisj'
      rcases List.mem_append.mp hmem with h1 | h2
      · exact d3 e h1 entry (List.mem_cons_self _ _) op hop
      · intro hope
        exact (List.pairwise_cons.mp d2).1 e h2 op hope hop
    dsimp only
    rw [he]
    refine ⟨?_, ?_, ?_, ?_, ?_, ?_, ?_⟩
    · intro op
      show (entry.tx.vin.foldl
          (fun sp i => fun op => if op = i.prevout then false else sp op) M.spent) op = true
        ↔ ∃ e ∈ l1 ++ l2, op ∈ prevouts e.tx
      rw [foldl_spentFalse_apply]
      by_cases hop : op ∈ entry.tx.vin.map (fun i => i.prevout)
      · rw [if_pos hop]
        simp only [Bool.false_eq_true, false_iff]
        rintro ⟨e, hmem, hope⟩
        exact hdisjE e hmem op hope hop
      · rw [if_neg hop]
        rw [hspent op]
        constructor
        · rintro ⟨e, hmem, hope⟩
          rw [hl] at hmem
          rcases List.mem_append.mp hmem with h1 | h2
          · exact ⟨e, List.mem_append_left _ h1, hope⟩
          · rcases List.mem_cons.mp h2 with heq | h3
            · subst heq; exact absurd hope hop
            · exact ⟨e, List.mem_append_right _ h3, hope⟩
        · rintro ⟨e, hmem, hope⟩
          exact ⟨e, hmemL e hmem, hope⟩
    · intro e hmem
      show (if e.txid_v1 = entry.txid_v1 then none else M.map_v1 e.txid_v1) = some e.txid_v2
      rw [if_neg (hne1 e hmem)]
      exact hv1f e (hmemL e hmem)
    · intro d d2 hd
      dsimp only at hd
      by_cases hde : d = entry.txid_v1
      · rw [show (if d = entry.txid_v1 then none else M.map_v1 d) = none from if_pos hde] at hd
        exact absurd hd (by simp)
      · rw [show (if d = entry.txid_v1 then none else M.map_v1 d)
            = M.map_v1 d from if_neg hde] at hd
        obtain ⟨e, hmem, he1, he2⟩ := hv1b d d2 hd
        rw [hl] at hmem
        rcases List.mem_append.mp hmem with h1 | h2
        · exact ⟨e, List.mem_append_left _ h1, he1, he2⟩
        · rcases List.mem_cons.mp h2 with heq | h3
          · subst heq; exact absurd (he1 ▸ rfl) hde
          · exact ⟨e, List.mem_append_right _ h3, he1, he2⟩
    · show M.total_bytes - entry.size_bytes = _
      rw [hbytes, hl]
      simp only [List.map_append, List.map_cons, List.sum_append, List.sum_cons]
      omega
    · exact (hsub.map _).nodup hnd2'
    · exact (hsub.map _).nodup hnd1'
    · exact hdisj'.sublist hsub

theorem remove_tx_sublist (M : Mempool) (txid : List Nat) :
    (M.remove_tx txid).1.map_v2.Sublist M.map_v2 := by
  unfold Mempool.remove_tx
  cases hf : M.map_v2.find? (fun e => decide (e.txid_v2 = txid)) with
  | none => exact List.Sublist.refl _
  | some entry =>
    dsimp only
    exact List.eraseP_sublist _

theorem remove_tx_v1_preserves_inv (M : Mempool) (txid : List Nat) (h : MempoolInv M) :
    MempoolInv (M.remove_tx_v1 txid).1 := by
  unfold Mempool.remove_tx_v1
  cases M.map_v1 txid with
  | none => exact h
  | some v2 => exact remove_tx_preserves_inv M v2 h

theorem evictLoop_preserves_inv (l : List MempoolEntry) :
    ∀ M : Mempool, MempoolInv M → MempoolInv (evictLoop M l) := by
  induction l with
  | nil => intro M h; exact h
  | cons e rest ih =>
    intro M h
    unfold evictLoop
    dsimp only
    have h' := remove_tx_preserves_inv M e.txid_v2 h
    split
    · exact h'
    · exact ih _ h'

theorem evictLoop_sublist (l : List MempoolEntry) :
    ∀ M : Mempool, (evictLoop M l).map_v2.Sublist M.map_v2 := by
  induction l with
  | nil => intro M; exact List.Sublist.refl _
  | cons e rest ih =>
    intro M
    unfold evictLoop
    dsimp only
    split
    · exact remove_tx_sublist M e.txid_v2
    · exact (ih _).trans (remove_tx_sublist M e.txid_v2)

theorem evict_low_fee_preserves_inv (M : Mempool) (h : MempoolInv M) :
    MempoolInv M.evict_low_fee := by
  unfold Mempool.evict_low_fee
  split
  · exact h
  · exact evictLoop_preserves_inv _ M h

theorem evict_low_fee_sublist (M : Mempool) :
    M.evict_low_fee.map_v2.Sublist M.map_v2 := by
  unfold Mempool.evict_low_fee
  split
  · exact List.Sublist.refl _
  · exact evictLoop_sublist _ M

theorem record_preserves_inv (M : Mempool) (tx : Transaction) (t1 t2 : List Nat)
    (fee size : Nat) (h : MempoolInv M)
    (ht2 : ∀ e ∈ M.map_v2, e.txid_v2 ≠ t2)
    (ht1 : ∀ e ∈ M.map_v2, e.txid_v1 ≠ t1)
    (hsp : ∀ op ∈ prevouts tx, M.spent op = false) :
    MempoolInv (M.record tx t1 t2 fee size) := by
  obtain ⟨hspent, hv1f, hv1b, hbytes, hnd2, hnd1, hdisj⟩ := h
  refine ⟨?_, ?_, ?_, ?_, ?_, ?_, ?_⟩
  · intro op
    show (tx.vin.foldl
        (fun sp i => fun op => if op = i.prevout then true else sp op) M.spent) op = true
      ↔ ∃ e ∈ M.map_v2 ++ [(⟨tx, t1, t2, fee, size⟩ : MempoolEntry)], op ∈ prevouts e.tx
    rw [foldl_spentTrue_apply]
    by_cases hop : op ∈ tx.vin.map (fun i => i.prevout)
    · rw [if_pos hop]
      simp only [true_iff]
      exact ⟨(⟨tx, t1, t2, fee, size⟩ : MempoolEntry),
        List.mem_append_right _ (List.mem_singleton.mpr rfl), hop⟩
    · rw [if_neg hop]
      rw [hspent op]
      constructor
      · rintro ⟨e, hmem, hope⟩
        exact ⟨e, List.mem_append_left _ hmem, hope⟩
      · rintro ⟨e, hmem, hope⟩
        rcases List.mem_append.mp hmem with h1 | h2
        · exact ⟨e, h1, hope⟩
        · rw [List.mem_singleton.mp h2] at hope
          exact absurd hope hop
  · intro e hmem
    show (if e.txid_v1 = t1 then some t2 else M.map_v1 e.txid_v1) = some e.txid_v2
    rcases List.mem_append.mp hmem with h1 | h2
    · rw [if_neg (ht1 e h1)]
      exact hv1f e h1
    · rw [List.mem_singleton.mp h2]
      simp
  · intro d d2 hd
    have hd' : (if d = t1 then some t2 else M.map_v1 d) = some d2 := hd
    show ∃ e ∈ M.map_v2 ++ [(⟨tx, t1, t2, fee, size⟩ : MempoolEntry)], e.txid_v1 = d ∧ e.txid_v2 = d2
    by_cases hde : d = t1
    · rw [if_pos hde, Option.some_inj] at hd'
      exact ⟨(⟨tx, t1, t2, fee, size⟩ : MempoolEntry),
        List.mem_append_right _ (List.mem_singleton.mpr rfl), hde.symm, hd'⟩
    · rw [if_neg hde] at hd'
      obtain ⟨e, hmem, he1, he2⟩ := hv1b d d2 hd'
      exact ⟨e, List.mem_append_left _ hmem, he1, he2⟩
  · show M.total_bytes + size
      = ((M.map_v2 ++ [(⟨tx, t1, t2, fee, size⟩ : MempoolEntry)]).map (fun e => e.size_bytes)).sum
    rw [hbytes]
    simp
  · show ((M.map_v2 ++ [(⟨tx, t1, t2, fee, size⟩ : MempoolEntry)]).map (fun e => e.txid_v2)).Nodup
    rw [List.map_append, List.nodup_append]
    refine ⟨hnd2, by simp, ?_⟩
    intro a ha hb
    simp only [List.map_cons, List.map_nil, List.mem_singleton] at hb
    obtain ⟨e, hmem, hkey⟩ := List.mem_map.mp ha
    exact ht2 e hmem (hkey.trans hb)
  · show ((M.map_v2 ++ [(⟨tx, t1, t2, fee, size⟩ : MempoolEntry)]).map (fun e => e.txid_v1)).Nodup
    rw [List.map_append, List.nodup_append]
    refine ⟨hnd1, by simp, ?_⟩
    intro a ha hb
    simp only [List.map_cons, List.map_nil, List.mem_singleton] at hb
    obtain ⟨e, hmem, hkey⟩ := List.mem_map.mp ha
    exact ht1 e hmem (hkey.trans hb)
  · show (M.map_v2 ++ [(⟨tx, t1, t2, fee, size⟩ : MempoolEntry)]).Pairwise EntriesDisjoint
    rw [List.pairwise_append]
    refine ⟨hdisj, List.pairwise_singleton _ _, ?_⟩
    intro a ha b hb
    rw [List.mem_singleton.mp hb]
    intro op hopa hopb
    have : M.spent op = true := (hspent op).mpr ⟨a, ha, hopa⟩
    rw [hsp op hopb] at this
    exact Bool.noConfusion this

theorem add_tx_preserves_inv (M : Mempool) (tx : Transaction) (utxos : UtxoMap)
    (h : MempoolInv M) : MempoolInv (M.add_tx tx utxos).1 := by
  unfold Mempool.add_tx
  cases h1 : tx.txid_v1 with
  | error e => exact h
  | ok t1 =>
    cases h2 : tx.txid_v2 with
    | error e => exact h
    | ok t2 =>
      dsimp only
      by_cases hdup :
          (M.map_v2.any (fun e => decide (e.txid_v2 = t2)) || (M.map_v1 t1).isSome) = true
      · rw [if_pos hdup]; exact h
      · rw [if_neg hdup]
        have hdup' : M.map_v2.any (fun e => decide (e.txid_v2 = t2)) = false ∧
            (M.map_v1 t1).isSome = false := by
          have hfalse : (M.map_v2.any (fun e => decide (e.txid_v2 = t2)) ||
              (M.map_v1 t1).isSome) = false := by
            cases hx : (M.map_v2.any (fun e => decide (e.txid_v2 = t2)) ||
                (M.map_v1 t1).isSome) with
            | false => rfl
            | true => exact absurd hx hdup
          exact Bool.or_eq_false_iff.mp hfalse
        have ht2M : ∀ e ∈ M.map_v2, e.txid_v2 ≠ t2 := by
          intro e hmem heq
          have := List.any_eq_false.mp hdup'.1 e hmem
          simp [heq] at this
        have hv1none : M.map_v1 t1 = none := Option.not_isSome_iff_eq_none.mp (by
          rw [hdup'.2]; exact Bool.false_ne_true)
        have ht1M : ∀ e ∈ M.map_v2, e.txid_v1 ≠ t1 := by
          intro e hmem heq
          have := h.2.1 e hmem
          rw [heq, hv1none] at this
          exact Option.noConfusion this
        cases hds : tx.vin.find? (fun i => M.spent i.prevout) with
        | some i => exact h
        | none =>
          have hspM : ∀ op ∈ prevouts tx, M.spent op = false := by
            intro op hop
            obtain ⟨i, hi, hieq⟩ := List.mem_map.mp hop
            have := List.find?_eq_none.mp hds i hi
            rw [← hieq]
            exact Bool.not_eq_true _ ▸ this
          cases hvc : Transaction.validate_value_conservation tx utxos with
          | error e => exact h
          | ok fee =>
            cases hcb : tx.canonical_bytes_v2 with
            | error e => exact h
            | ok cb =>
              dsimp only
              by_cases hrate : (if cb.length = 0 then (0 : ℚ)
                  else mkRat fee cb.length) < M.cfg.min_fee_rate
              · rw [if_pos hrate]; exact h
              · rw [if_neg hrate]
                by_cases hcap : M.map_v2.length + 1 > M.cfg.max_txs ∨
                    M.total_bytes + cb.length > M.cfg.max_total_bytes
                · rw [if_pos hcap]
                  have hInv' := evict_low_fee_preserves_inv M h
                  have hsubl := evict_low_fee_sublist M
                  by_cases hfull :
                      M.evict_low_fee.map_v2.length + 1 > M.evict_low_fee.cfg.max_txs
                  · rw [if_pos hfull]; exact hInv'
                  · rw [if_neg hfull]
                    by_cases hbl : M.evict_low_fee.total_bytes + cb.length >
                        M.evict_low_fee.cfg.max_total_bytes
                    · rw [if_pos hbl]; exact hInv'
                    · rw [if_neg hbl]
                      refine record_preserves_inv _ _ _ _ _ _ hInv' ?_ ?_ ?_
                      · intro e hmem
                        exact ht2M e (hsubl.mem hmem)
                      · intro e hmem
                        exact ht1M e (hsubl.mem hmem)
                      · intro op hop
                        cases hq : M.evict_low_fee.spent op with
                        | false => rfl
                        | true =>
                          obtain ⟨e, hmem, hope⟩ := (hInv'.1 op).mp hq
                          have : M.spent op = true :=
                            (h.1 op).mpr ⟨e, hsubl.mem hmem, hope⟩
                          rw [hspM op hop] at this
                          exact Bool.noConfusion this
                · rw [if_neg hcap]
                  exact record_preserves_inv _ _ _ _ _ _ h ht2M ht1M hspM

/-- Claim C10: the mempool invariant — the spent set is exactly the union
of the input prevouts of resident entries, the v1 index maps exactly each
resident entry's txid_v1 to its txid_v2, and total_bytes is the sum of
resident sizes (with the structural facts the hash maps maintain) —
holds for the empty pool and is preserved by add_tx, remove_tx,
remove_tx_v1 and eviction. -/
theorem mempool_invariant_maintained :
    (∀ cfg, MempoolInv (Mempool.new cfg)) ∧
    (∀ (M : Mempool) (tx : Transaction) (utxos : UtxoMap),
      MempoolInv M → MempoolInv (M.add_tx tx utxos).1) ∧
    (∀ (M : Mempool) (txid : List Nat),
      MempoolInv M → MempoolInv (M.remove_tx txid).1) ∧
    (∀ (M : Mempool) (txid : List Nat),
      MempoolInv M → MempoolInv (M.remove_tx_v1 txid).1) ∧
    (∀ M : Mempool, MempoolInv M → MempoolInv M.evict_low_fee) :=
  ⟨mempool_inv_empty,
   fun M tx utxos h => add_tx_preserves_inv M tx utxos h,
   fun M txid h => remove_tx_preserves_inv M txid h,
   fun M txid h => remove_tx_v1_preserves_inv M txid h,
   fun M h => evict_low_fee_preserves_inv M h⟩

/-! ## Claim C8: double-spend rejection -/

/-- Amended claim C8: if the mempool satisfies its invariant, some
resident entry carries `t1`, `t2` shares a prevout with `t1`, and `t2` is
not itself a duplicate (neither of its txids is already indexed), then
`add_tx t2` fails with `DoubleSpend` naming a prevout of `t2` that is
claimed by a resident entry, and the mempool is unchanged. -/
theorem add_tx_double_spend_rejected (M : Mempool) (t1 t2 : Transaction)
    (utxos : UtxoMap) (p : OutPoint) (d1 d2 : List Nat)
    (hInv : MempoolInv M)
    (hres : ∃ e ∈ M.map_v2, e.tx = t1)
    (hp1 : p ∈ prevouts t1) (hp2 : p ∈ prevouts t2)
    (h1 : t2.txid_v1 = .ok d1) (h2 : t2.txid_v2 = .ok d2)
    (hnd2 : ∀ e ∈ M.map_v2, e.txid_v2 ≠ d2)
    (hnd1 : M.map_v1 d1 = none) :
    ∃ q, M.add_tx t2 utxos = (M, .error (.doubleSpend q)) ∧
      q ∈ prevouts t2 ∧ ∃ e ∈ M.map_v2, q ∈ prevouts e.tx := by
  obtain ⟨e1, he1mem, he1tx⟩ := hres
  have hspentp : M.spent p = true := (hInv.1 p).mpr ⟨e1, he1mem, he1tx.symm ▸ hp1⟩
  have hfind : (t2.vin.find? (fun i => M.spent i.prevout)).isSome := by
    rw [List.find?_isSome]
    obtain ⟨i, hi, hieq⟩ := List.mem_map.mp hp2
    exact ⟨i, hi, by rw [hieq]; exact hspentp⟩
  cases hds : t2.vin.find? (fun i => M.spent i.prevout) with
  | none => rw [hds] at hfind; exact absurd hfind (by simp)
  | some i =>
    have hiprev : M.spent i.prevout = true := by
      have := List.find?_some hds
      exact this
    have himem : i ∈ t2.vin := List.mem_of_find?_eq_some hds
    refine ⟨i.prevout, ?_, List.mem_map_of_mem _ himem, (hInv.1 i.prevout).mp hiprev⟩
    unfold Mempool.add_tx
    rw [h1, h2]
    dsimp only
    have hany : M.map_v2.any (fun e => decide (e.txid_v2 = d2)) = false := by
      rw [List.any_eq_false]
      intro e hmem
      simpa using hnd2 e hmem
    rw [if_neg (by rw [hany, hnd1]; simp)]
    rw [hds]

/-! ## Claim C4: the concrete eviction scenario -/

/-- Mempool config with `max_txs = 2`. -/
def c4cfg : MempoolConfig := ⟨2, 1000000, 0⟩

/-- Distinct preloaded outpoints. -/
def c4op (b : Nat) : OutPoint := ⟨List.replicate 32 b, 0⟩

/-- UTXO set funding the three transactions. -/
def c4utxos : UtxoMap := fun op =>
  if op = c4op 21 then some ⟨1000, []⟩
  else if op = c4op 22 then some ⟨2000, []⟩
  else if op = c4op 23 then some ⟨600, []⟩
  else none

/-- 88-byte transaction with fee 880: fee rate 10. -/
def c4t1 : Transaction := ⟨1, [⟨c4op 21, [], 0⟩], [⟨120, []⟩], 0⟩

/-- 88-byte transaction with fee 1760: fee rate 20. -/
def c4t2 : Transaction := ⟨1, [⟨c4op 22, [], 0⟩], [⟨240, []⟩], 0⟩

/-- 88-byte transaction with fee 440: fee rate 5. -/
def c4t3 : Transaction := ⟨1, [⟨c4op 23, [], 0⟩], [⟨160, []⟩], 0⟩

/-- The empty pool under the `max_txs = 2` config. -/
def c4m0 : Mempool := Mempool.new c4cfg

/-- After admitting the rate-10 transaction. -/
def c4m1 : Mempool := (c4m0.add_tx c4t1 c4utxos).1

/-- After admitting the rate-20 transaction. -/
def c4m2 : Mempool := (c4m1.add_tx c4t2 c4utxos).1

/-- After admitting the rate-5 transaction. -/
def c4m3 : Mempool := (c4m2.add_tx c4t3 c4utxos).1

/-- Counterexample to claim C4 as stated: all three admissions succeed,
but the final pool holds no rate-10 entry — the rate-10 entry was
evicted to make room and the incoming rate-5 transaction was admitted,
so the pool does not contain exactly the rates 20 and 10. -/
theorem mempool_eviction_scenario_claim_false :
    (c4m0.add_tx c4t1 c4utxos).2 = .ok () ∧
    (c4m1.add_tx c4t2 c4utxos).2 = .ok () ∧
    (c4m2.add_tx c4t3 c4utxos).2 = .ok () ∧
    (∀ e ∈ c4m3.map_v2, fee_rate e ≠ 10) ∧
    (∃ e ∈ c4m3.map_v2, fee_rate e = 5) := by
  refine ⟨by decide, by decide, by decide, by decide, by decide⟩

/-- Amended claim C4: with `max_txs = 2` and admissions at rates 10, 20,
then 5, eviction removes the lowest remaining fee rate first (the rate-10
entry), and the rate-5 transaction is then admitted: the final pool
contains exactly the entries with fee rates 20 and 5. -/
theorem mempool_eviction_scenario_actual :
    (c4m0.add_tx c4t1 c4utxos).2 = .ok () ∧
    (c4m1.add_tx c4t2 c4utxos).2 = .ok () ∧
    (c4m2.add_tx c4t3 c4utxos).2 = .ok () ∧
    c4m2.map_v2.map fee_rate = [10, 20] ∧
    c4m3.map_v2.map fee_rate = [20, 5] := by
  refine ⟨by decide, by decide, by decide, by decide, by decide⟩

/-- Counterexample to claim C8 as stated: a resident transaction shares
all its prevouts with itself, yet re-adding it is rejected as
`DuplicateTx`, not `DoubleSpend`. -/
theorem add_tx_shared_prevout_duplicate_not_double_spend :
    (c4m0.add_tx c4t1 c4utxos).2 = .ok () ∧
    (∃ e ∈ c4m1.map_v2, e.tx = c4t1) ∧
    (c4m1.add_tx c4t1 c4utxos).2 = .error .duplicateTx ∧
    (∀ q, (c4m1.add_tx c4t1 c4utxos).2 ≠ .error (.doubleSpend q)) := by
  have h3 : (c4m1.add_tx c4t1 c4utxos).2 = .error .duplicateTx := by decide
  refine ⟨by decide, by decide, h3, ?_⟩
  intro q hq
  rw [h3] at hq
  exact MempoolError.noConfusion (Except.error.inj hq)

/-- A fresh transaction spending the same prevout as `c4t1`. -/
def c8t2 : Transaction := ⟨1, [⟨c4op 21, [], 0⟩], [⟨130, []⟩], 0⟩

/-- Its v1 txid. -/
def c8d1 : List Nat :=
  match c8t2.txid_v1 with
  | .ok d => d
  | .error _ => []

/-- Its v2 txid. -/
def c8d2 : List Nat :=
  match c8t2.txid_v2 with
  | .ok d => d
  | .error _ => []

/-- Witness for the amended C8 at a concrete input. -/
theorem add_tx_double_spend_rejected_witness :
    ∃ q, c4m1.add_tx c8t2 c4utxos = (c4m1, .error (.doubleSpend q)) ∧
      q ∈ prevouts c8t2 ∧ ∃ e ∈ c4m1.map_v2, q ∈ prevouts e.tx :=
  add_tx_double_spend_rejected c4m1 c4t1 c8t2 c4utxos (c4op 21) c8d1 c8d2
    (add_tx_preserves_inv c4m0 c4t1 c4utxos (mempool_inv_empty c4cfg))
    (by decide) (by decide) (by decide) (by decide) (by decide) (by decide) (by decide)

/-- Witness for C10 at concrete inputs. -/
theorem mempool_invariant_maintained_witness :
    MempoolInv (Mempool.new c4cfg) ∧
    MempoolInv ((Mempool.new c4cfg).add_tx c4t1 c4utxos).1 ∧
    MempoolInv ((Mempool.new c4cfg).remove_tx (List.replicate 32 0)).1 ∧
    MempoolInv ((Mempool.new c4cfg).remove_tx_v1 (List.replicate 32 0)).1 ∧
    MempoolInv (Mempool.new c4cfg).evict_low_fee :=
  ⟨mempool_invariant_maintained.1 c4cfg,
   mempool_invariant_maintained.2.1 _ c4t1 c4utxos (mempool_inv_empty c4cfg),
   mempool_invariant_maintained.2.2.1 _ _ (mempool_inv_empty c4cfg),
   mempool_invariant_maintained.2.2.2.1 _ _ (mempool_inv_empty c4cfg),
   mempool_invariant_maintained.2.2.2.2 _ (mempool_inv_empty c4cfg)⟩

end Tenebrium
